import Mathlib

/-!
# csvtool

A shallow embedding of `src/csvtool.cpp` (the row reader `CSVRow`, the
resettable source `CSVReader` and the operations of `CSVAnalyzer`) together
with the properties of the tabular engine that are proved about it.

Conventions of the embedding.

* Text (`std::string`, file contents) is a list of characters.
* An input stream is its whole text, the unread part of it, and the two state
  bits `eofbit` and `failbit` that the code consults.
* A C++ reference parameter that a function updates is threaded through: the
  function takes the old value and returns the new one.
* A `while` loop is a recursion on a fuel counter.  Each loop is started with
  one more unit of fuel than there are unread characters, every iteration that
  continues consumes at least one character, and the theorems relate the
  result to fuel-free functions (`pieces`, `dataRows`), so the bound is never
  what ends a loop.
* `double` is a linearly ordered type `V` (the numeric doubles ordered by `<`)
  with the library operations the code uses collected in `DoubleOps`;
  `exactOps` is an instance with exact arithmetic, used on concrete files.
* A file is taken to open (the two `Unable to open` / `Failed to write` throws
  are outside the embedding), and `std::sort` is the sequential one of the
  `#else` branch.
-/

namespace CsvTool

/-- Text: the characters of a `std::string`. -/
abbrev Str := List Char

/-- The ways an operation can fail. -/
inductive Err where
  /-- Thrown by `getColumnIndex`: `std::runtime_error("Column not found: " + name)`. -/
  | columnNotFound (name : Str)
  /-- Thrown by `std::stod`: the text is not converted to a number. -/
  | numericParse
  /-- Reached by `data[index]` with `index >= data.size()`: `std::vector::operator[]`
  makes no bounds check, the read is undefined behaviour. -/
  | indexPastEnd
  deriving DecidableEq

/-! ## Input streams and `std::getline` -/

/-- An input stream (`std::ifstream`, `std::stringstream`) as far as the code
observes it. -/
structure IStream where
  /-- The whole text behind the stream. -/
  content : Str
  /-- The characters not yet extracted. -/
  rest : Str
  eofbit : Bool
  failbit : Bool
  deriving DecidableEq

/-- A stream freshly opened on a text. -/
def IStream.ofText (text : Str) : IStream :=
  { content := text, rest := text, eofbit := false, failbit := false }

/-- The member `clear()`: resets the state bits. -/
def IStream.clear (s : IStream) : IStream :=
  { s with eofbit := false, failbit := false }

/-- The call `seekg(0, std::ios::beg)`: clears `eofbit`, then repositions to the
start unless the stream has failed. -/
def IStream.seekgBeg (s : IStream) : IStream :=
  if s.failbit then { s with eofbit := false }
  else { s with eofbit := false, rest := s.content }

/-- Extraction of characters up to a delimiter: the characters before the first
`delim`, and the text after that `delim` when there is one (`none` when the end
of the text is reached first). -/
def takeLine (delim : Char) : Str → Str × Option Str
  | [] => ([], none)
  | c :: cs =>
    if c = delim then ([], some cs)
    else ((c :: (takeLine delim cs).1), (takeLine delim cs).2)

/-- The call `std::getline(s, str, delim)`.  On a stream that is not good the
sentry fails: `failbit` is set and `str` is left alone.  Otherwise `str` is
erased and filled with the characters up to the delimiter, which is extracted
and dropped; reaching the end of the text sets `eofbit`, and extracting nothing
at all sets `failbit`. -/
def getline (s : IStream) (str : Str) (delim : Char) : IStream × Str :=
  if s.eofbit || s.failbit then ({ s with failbit := true }, str)
  else
    match s.rest with
    | [] => ({ s with eofbit := true, failbit := true }, [])
    | c :: cs =>
      match takeLine delim (c :: cs) with
      | (line, some after) => ({ s with rest := after }, line)
      | (line, none) => ({ s with rest := [], eofbit := true }, line)

/-! ## `CSVRow` -/

/-- One row: `std::vector<std::string> data`. -/
structure CSVRow where
  data : List Str
  deriving DecidableEq

/-- The loop `while (std::getline(lineStream, cell, ',')) data.push_back(cell);`
of `CSVRow::readNextRow` (and of the constructor of `CSVReader`): the condition
holds when the stream has not failed. -/
def readCellsLoop : Nat → IStream → Str → List Str → List Str
  | 0, _, _, data => data
  | fuel + 1, lineStream, cell, data =>
    if (getline lineStream cell ',').1.failbit then data
    else
      readCellsLoop fuel (getline lineStream cell ',').1 (getline lineStream cell ',').2
        (data ++ [(getline lineStream cell ',').2])

/-- The body of `CSVRow::readNextRow` after the line is read: a string stream
over the line, an empty `cell`, cleared `data`, and the splitting loop. -/
def readCells (line : Str) : List Str :=
  readCellsLoop (line.length + 1) (IStream.ofText line) [] []

/-- The method `CSVRow::readNextRow`: reads one line from the stream and splits
it on commas.  The old fields are cleared, so the result does not depend on
them. -/
def CSVRow.readNextRow (str : IStream) : IStream × CSVRow :=
  ((getline str [] '\n').1, { data := readCells (getline str [] '\n').2 })

/-- The member `CSVRow::operator[]`: `data[index]`, unchecked. -/
def CSVRow.get (row : CSVRow) (index : Nat) : Except Err Str :=
  match row.data[index]? with
  | some field => .ok field
  | none => .error .indexPastEnd

/-- The member `CSVRow::size`. -/
def CSVRow.size (row : CSVRow) : Nat := row.data.length

/-! ## `CSVReader` -/

/-- The reader: the file stream, the header line and the header names. -/
structure CSVReader where
  file : IStream
  headerLine : Str
  headers : List Str
  deriving DecidableEq

/-- The constructor `CSVReader(filename)` on a file that opens, with `text` its
content: reads the header line and splits it into the header names. -/
def CSVReader.create (text : Str) : CSVReader :=
  { file := (getline (IStream.ofText text) [] '\n').1
    headerLine := (getline (IStream.ofText text) [] '\n').2
    headers := readCells (getline (IStream.ofText text) [] '\n').2 }

/-- The member `CSVReader::getHeaders`. -/
def CSVReader.getHeaders (r : CSVReader) : List Str := r.headers

/-- The member `CSVReader::readRow(row)`: the new reader, the new value of `row`
and the returned flag. -/
def CSVReader.readRow (r : CSVReader) (row : CSVRow) : CSVReader × CSVRow × Bool :=
  if !r.file.eofbit then
    ({ r with file := (CSVRow.readNextRow r.file).1 },
      (CSVRow.readNextRow r.file).2,
      !(CSVRow.readNextRow r.file).2.data.isEmpty)
  else (r, row, false)

/-- The member `CSVReader::reset`. -/
def CSVReader.reset (r : CSVReader) : CSVReader :=
  { r with
    file := (getline r.file.clear.seekgBeg r.headerLine '\n').1
    headerLine := (getline r.file.clear.seekgBeg r.headerLine '\n').2 }

/-! ## The library functions the analyzer calls -/

/-- The operations on `double` that the analyzer takes from the library, over
a type `V` of numbers.  The comparisons `<` and `>` of the code are those of a
linear order on `V`, which stands for the doubles that are numbers: a NaN,
which compares false with everything, is not a value of `V`. -/
structure DoubleOps (V : Type) where
  /-- The function `std::stod`; `none` when it throws. -/
  stod : Str → Option V
  /-- The constant `0.0`. -/
  zero : V
  /-- The sum of two doubles. -/
  add : V → V → V
  /-- The quotient of a double by a `std::size_t` converted to `double`. -/
  divSize : V → Nat → V

/-- The comparison `a < b` of `std::string`: lexicographic on the characters. -/
def strLt : Str → Str → Bool
  | _, [] => false
  | [], _ :: _ => true
  | a :: as, b :: bs => if a < b then true else if b < a then false else strLt as bs

/-- A `std::map<std::string, std::vector<double>>`: its entries in key order. -/
abbrev Groups (V : Type) := List (Str × List V)

/-- The statement `groups[key].push_back(val)`: appends to the entry of `key`,
which is created in its place in the key order when absent. -/
def groupsPush {V : Type} (key : Str) (val : V) : Groups V → Groups V
  | [] => [(key, [val])]
  | (k, values) :: more =>
    if strLt key k then (key, [val]) :: (k, values) :: more
    else if strLt k key then (k, values) :: groupsPush key val more
    else (k, values ++ [val]) :: more

/-- The sequential `std::__unguarded_linear_insert` of the library sort: `val`
moves left past every element that `comp(val, ·)` holds of.  The elements left
of the hole are given nearest first, and so is the result.  Walking past the
front of the range is undefined. -/
def unguardedLinearInsert {α : Type} (comp : α → α → Except Err Bool) (val : α) :
    List α → Except Err (List α)
  | [] => .error .indexPastEnd
  | next :: before =>
    match comp val next with
    | .error e => .error e
    | .ok false => .ok (val :: next :: before)
    | .ok true =>
      match unguardedLinearInsert comp val before with
      | .error e => .error e
      | .ok moved => .ok (next :: moved)

/-- The loop of `std::__insertion_sort`: `sorted` is the range before the
current element, `x :: todo` the current element and those after it. -/
def insertionSortLoop {α : Type} (comp : α → α → Except Err Bool) :
    List α → List α → Except Err (List α)
  | sorted, [] => .ok sorted
  | [], x :: todo => insertionSortLoop comp [x] todo
  | first :: others, x :: todo =>
    match comp x first with
    | .error e => .error e
    | .ok true => insertionSortLoop comp (x :: first :: others) todo
    | .ok false =>
      match unguardedLinearInsert comp x (first :: others).reverse with
      | .error e => .error e
      | .ok placed => insertionSortLoop comp placed.reverse todo

/-- The call `std::sort(begin, end, comp)` with a comparator that may throw, as
the sequential insertion sort of the library (`std::__insertion_sort`, which is
all the library runs on a range of at most 16 elements; a longer range is
partitioned first).  An exception of the comparator ends the sort.  A range of
one element is returned without any call of the comparator. -/
def stdSort {α : Type} (comp : α → α → Except Err Bool) : List α → Except Err (List α)
  | [] => .ok []
  | first :: todo => insertionSortLoop comp [first] todo

/-! ## `CSVAnalyzer` -/

/-- The analyzer: the reader it refers to (threaded through the operations
that read from it) and its copy of the header names. -/
structure CSVAnalyzer where
  reader : CSVReader
  headers : List Str
  deriving DecidableEq

/-- The constructor `CSVAnalyzer(r)`. -/
def CSVAnalyzer.create (r : CSVReader) : CSVAnalyzer :=
  { reader := r, headers := r.getHeaders }

/-- The loop of `getColumnIndex` from position `i` on. -/
def getColumnIndexFrom (name : Str) : List Str → Nat → Except Err Nat
  | [], _ => .error (.columnNotFound name)
  | header :: more, i => if header = name then .ok i else getColumnIndexFrom name more (i + 1)

/-- The member `CSVAnalyzer::getColumnIndex`.  (The `int` it returns holds
every position below `2 ^ 31`.) -/
def CSVAnalyzer.getColumnIndex (a : CSVAnalyzer) (name : Str) : Except Err Nat :=
  getColumnIndexFrom name a.headers 0

/-- The loop of `filter`. -/
def filterLoop (predicate : CSVRow → Bool) :
    Nat → CSVReader → CSVRow → List CSVRow → List CSVRow × CSVReader
  | 0, r, _, result => (result, r)
  | fuel + 1, r, row, result =>
    match r.readRow row with
    | (r', _, false) => (result, r')
    | (r', row', true) =>
      filterLoop predicate fuel r' row' (if predicate row' then result ++ [row'] else result)

/-- The member `CSVAnalyzer::filter`: the returned rows and the analyzer with
the reader as the scan leaves it. -/
def CSVAnalyzer.filter (a : CSVAnalyzer) (predicate : CSVRow → Bool) :
    List CSVRow × CSVAnalyzer :=
  ((filterLoop predicate (a.reader.reset.file.rest.length + 1) a.reader.reset { data := [] } []).1,
    { a with reader :=
        (filterLoop predicate (a.reader.reset.file.rest.length + 1) a.reader.reset
          { data := [] } []).2 })

/-- The expression `std::stod(row[idx])`. -/
def parseField {V : Type} (ops : DoubleOps V) (row : CSVRow) (idx : Nat) : Except Err V :=
  match row.get idx with
  | .error e => .error e
  | .ok text =>
    match ops.stod text with
    | none => .error .numericParse
    | some val => .ok val

/-- The scan loop of `groupByAndAverage`. -/
def groupLoop {V : Type} (ops : DoubleOps V) (groupIdx valueIdx : Nat) :
    Nat → CSVReader → CSVRow → Groups V → Except Err (Groups V) × CSVReader
  | 0, r, _, groups => (.ok groups, r)
  | fuel + 1, r, row, groups =>
    match r.readRow row with
    | (r', _, false) => (.ok groups, r')
    | (r', row', true) =>
      match row'.get groupIdx with
      | .error e => (.error e, r')
      | .ok key =>
        match parseField ops row' valueIdx with
        | .error e => (.error e, r')
        | .ok val => groupLoop ops groupIdx valueIdx fuel r' row' (groupsPush key val groups)

/-- The average printed for one group:
`std::accumulate(values.begin(), values.end(), 0.0) / values.size()`. -/
def average {V : Type} (ops : DoubleOps V) (values : List V) : V :=
  ops.divSize (values.foldl ops.add ops.zero) values.length

/-- The member `CSVAnalyzer::groupByAndAverage`: the `key: avg` lines it prints,
in order, as pairs.  Nothing is printed when the scan throws. -/
def CSVAnalyzer.groupByAndAverage {V : Type} (ops : DoubleOps V) (a : CSVAnalyzer)
    (groupCol valueCol : Str) : Except Err (List (Str × V)) × CSVAnalyzer :=
  match a.getColumnIndex groupCol with
  | .error e => (.error e, a)
  | .ok groupIdx =>
    match a.getColumnIndex valueCol with
    | .error e => (.error e, a)
    | .ok valueIdx =>
      match groupLoop ops groupIdx valueIdx (a.reader.reset.file.rest.length + 1)
          a.reader.reset { data := [] } [] with
      | (.error e, r) => (.error e, { a with reader := r })
      | (.ok groups, r) =>
        (.ok (groups.map fun entry => (entry.1, average ops entry.2)), { a with reader := r })

/-- The loop of `getMaxMin`, with the flag `first` and the two referenced
doubles as loop state. -/
def maxMinLoop {V : Type} [LinearOrder V] (ops : DoubleOps V) (colIdx : Nat) :
    Nat → CSVReader → CSVRow → Bool → V → V → Except Err (V × V) × CSVReader
  | 0, r, _, _, maxVal, minVal => (.ok (maxVal, minVal), r)
  | fuel + 1, r, row, first, maxVal, minVal =>
    match r.readRow row with
    | (r', _, false) => (.ok (maxVal, minVal), r')
    | (r', row', true) =>
      match parseField ops row' colIdx with
      | .error e => (.error e, r')
      | .ok val =>
        if first then maxMinLoop ops colIdx fuel r' row' false val val
        else
          maxMinLoop ops colIdx fuel r' row' false (if val > maxVal then val else maxVal)
            (if val < minVal then val else minVal)

/-- The member `CSVAnalyzer::getMaxMin`: takes the values the caller's `maxVal`
and `minVal` hold and returns the values they hold afterwards. -/
def CSVAnalyzer.getMaxMin {V : Type} [LinearOrder V] (ops : DoubleOps V) (a : CSVAnalyzer)
    (columnName : Str) (maxVal minVal : V) : Except Err (V × V) × CSVAnalyzer :=
  match a.getColumnIndex columnName with
  | .error e => (.error e, a)
  | .ok colIdx =>
    ((maxMinLoop ops colIdx (a.reader.reset.file.rest.length + 1) a.reader.reset { data := [] }
        true maxVal minVal).1,
      { a with reader :=
          (maxMinLoop ops colIdx (a.reader.reset.file.rest.length + 1) a.reader.reset
            { data := [] } true maxVal minVal).2 })

/-- The reading loop of `sortByColumn`: every row the reader yields, in order. -/
def readAllLoop : Nat → CSVReader → CSVRow → List CSVRow → List CSVRow × CSVReader
  | 0, r, _, allRows => (allRows, r)
  | fuel + 1, r, row, allRows =>
    match r.readRow row with
    | (r', _, false) => (allRows, r')
    | (r', row', true) => readAllLoop fuel r' row' (allRows ++ [row'])

/-- The comparator of `sortByColumn`. -/
def sortComparator {V : Type} [LinearOrder V] (ops : DoubleOps V) (colIdx : Nat)
    (descending : Bool) (a b : CSVRow) : Except Err Bool :=
  match parseField ops a colIdx with
  | .error e => .error e
  | .ok valA =>
    match parseField ops b colIdx with
    | .error e => .error e
    | .ok valB => .ok (if descending then decide (valA > valB) else decide (valA < valB))

/-- The member `CSVAnalyzer::sortByColumn` (the sequential `std::sort` call). -/
def CSVAnalyzer.sortByColumn {V : Type} [LinearOrder V] (ops : DoubleOps V) (a : CSVAnalyzer)
    (columnName : Str) (descending : Bool) : Except Err (List CSVRow) × CSVAnalyzer :=
  match a.getColumnIndex columnName with
  | .error e => (.error e, a)
  | .ok colIdx =>
    (stdSort (sortComparator ops colIdx descending)
        (readAllLoop (a.reader.reset.file.rest.length + 1) a.reader.reset { data := [] } []).1,
      { a with reader :=
          (readAllLoop (a.reader.reset.file.rest.length + 1) a.reader.reset { data := [] } []).2 })

/-- One line of `exportToCSV` without its newline: the fields with a comma
after each but the last. -/
def writeFields : List Str → Str
  | [] => []
  | [field] => field
  | field :: next :: more => field ++ ',' :: writeFields (next :: more)

/-- The row loop of `exportToCSV`. -/
def writeRows : List CSVRow → Str
  | [] => []
  | row :: more => writeFields row.data ++ '\n' :: writeRows more

/-- The member `CSVAnalyzer::exportToCSV` on a destination that opens: the text
written to it. -/
def CSVAnalyzer.exportToCSV (a : CSVAnalyzer) (rows : List CSVRow) : Str :=
  writeFields a.headers ++ '\n' :: writeRows rows

/-! ## An exact instance of the numeric library -/

/-- The value of a run of decimal digits. -/
def digitsValue (digits : Str) : Nat :=
  digits.foldl (fun acc c => 10 * acc + (c.toNat - 48)) 0

/-- The white space `std::stod` skips. -/
def isSpace (c : Char) : Bool :=
  c = ' ' || c = '\t' || c = '\n' || c = '\x0b' || c = '\x0c' || c = '\r'

/-- The conversion `std::stod` on plain decimal literals, with the value kept
exactly: leading white space, an optional sign, digits with an optional
fraction part; what follows is ignored, and a text with no digit there is not
converted.  (Exponents, hexadecimal literals and the words `inf` and `nan`,
which `std::stod` also reads, are not covered.) -/
def stodDecimal (text : Str) : Option ℚ :=
  let body := text.dropWhile isSpace
  let negative := body.head? = some '-'
  let unsigned := if body.head? = some '-' ∨ body.head? = some '+' then body.tail else body
  let whole := unsigned.takeWhile Char.isDigit
  let fraction :=
    match unsigned.dropWhile Char.isDigit with
    | '.' :: after => after.takeWhile Char.isDigit
    | _ => []
  if whole = [] ∧ fraction = [] then none
  else
    some ((if negative then -1 else 1) * (digitsValue (whole ++ fraction) : ℚ)
      / (10 : ℚ) ^ fraction.length)

/-- Exact arithmetic on the rationals as an instance of the numeric library. -/
def exactOps : DoubleOps ℚ :=
  { stod := stodDecimal
    zero := 0
    add := fun x y => x + y
    divSize := fun x n => x / (n : ℚ) }

deriving instance DecidableEq for Except

/-! ## The fuel-free description of what a stream yields -/

/-- The successive results of `std::getline` with delimiter `d` on a text: the
text cut at every `d`, without a final empty piece. -/
def pieces (d : Char) : Str → List Str
  | [] => []
  | c :: cs =>
    if c = d then [] :: pieces d cs
    else
      match pieces d cs with
      | [] => [[c]]
      | p :: ps => (c :: p) :: ps

/-- The rows a scan yields from the lines that follow the header: the lines
before the first empty one, each split into its fields. -/
def rowsOfLines (lines : List Str) : List CSVRow :=
  (lines.takeWhile fun line => !line.isEmpty).map fun line => { data := readCells line }

/-- The rows a scan of a file yields: the text is cut into lines, the first
line is the header, and the rows are those of the lines after it. -/
def dataRows (text : Str) : List CSVRow :=
  rowsOfLines (pieces '\n' text).tail

/-- The rows still to come from a stream in a given state. -/
def rowsFrom (s : IStream) : List CSVRow :=
  if s.eofbit || s.failbit then [] else rowsOfLines (pieces '\n' s.rest)

/-- The text of a file holding the given lines: a newline after every line,
the one after the last line being there or not. -/
def textOfLines : List Str → Bool → Str
  | [], _ => []
  | [line], finalNewline => if finalNewline then line ++ ['\n'] else line
  | line :: next :: more, finalNewline => line ++ '\n' :: textOfLines (next :: more) finalNewline

/-- The analyzer `main` builds for a file whose content is `text`:
`CSVReader reader(filename); CSVAnalyzer analyzer(reader);`. -/
def analyzerOf (text : Str) : CSVAnalyzer :=
  CSVAnalyzer.create (CSVReader.create text)

/-- The rows a scan of the file with content `text` yields, read off the code:
`filter` with the always-true predicate on a reader opened on the file. -/
def scanRows (text : Str) : List CSVRow :=
  ((analyzerOf text).filter fun _ => true).1

/-- Reading rows from a reader until `readRow` returns false: the rows read. -/
def scanAll (r : CSVReader) : List CSVRow :=
  (readAllLoop (r.file.rest.length + 1) r { data := [] } []).1

/-- The reader after `k` calls of `readRow`. -/
def afterReads : Nat → CSVReader → CSVRow → CSVReader
  | 0, r, _ => r
  | k + 1, r, row => afterReads k (r.readRow row).1 (r.readRow row).2.1

/-- The reader after `n` rounds of `reset` followed by a scan to the end. -/
def afterRounds : Nat → CSVReader → CSVReader
  | 0, r => r
  | n + 1, r =>
    afterRounds n (readAllLoop (r.reset.file.rest.length + 1) r.reset { data := [] } []).2

/-- The text in column `idx` of a row that has that column (the empty text
stands in where `row[idx]` is past the end). -/
def fieldAt (idx : Nat) (row : CSVRow) : Str :=
  match row.get idx with
  | .ok field => field
  | .error _ => []

/-- The number in column `idx` of a row whose text there converts (`0.0` stands
in where `std::stod(row[idx])` does not return). -/
def numberAt {V : Type} (ops : DoubleOps V) (idx : Nat) (row : CSVRow) : V :=
  match parseField ops row idx with
  | .ok val => val
  | .error _ => ops.zero

/-- The running maximum and minimum of `getMaxMin` over the values of the
rows, from the state `first`, `maxVal`, `minVal`. -/
def maxMinFold {V : Type} [LinearOrder V] : Bool → V → V → List V → V × V
  | _, maxVal, minVal, [] => (maxVal, minVal)
  | true, _, _, val :: more => maxMinFold false val val more
  | false, maxVal, minVal, val :: more =>
    maxMinFold false (if val > maxVal then val else maxVal)
      (if val < minVal then val else minVal) more

/-- Whether an outcome is a C++ exception, which `main` catches and reports as
`Error: ...`.  The source throws for a column that is not found and lets
`std::stod` throw; a read past the end of `data` throws nothing. -/
def Err.thrown : Err → Bool
  | .columnNotFound _ => true
  | .numericParse => true
  | .indexPastEnd => false

/-- The scan of `groupByAndAverage` over a sequence of rows: the body of its
loop applied to the rows in order, ending at the first row that fails. -/
def groupRows {V : Type} (ops : DoubleOps V) (groupIdx valueIdx : Nat) :
    List CSVRow → Groups V → Except Err (Groups V)
  | [], groups => .ok groups
  | row :: more, groups =>
    match row.get groupIdx with
    | .error e => .error e
    | .ok key =>
      match parseField ops row valueIdx with
      | .error e => .error e
      | .ok val => groupRows ops groupIdx valueIdx more (groupsPush key val groups)

/-- The scan of `getMaxMin` over a sequence of rows: the body of its loop
applied to the rows in order, ending at the first row that fails. -/
def maxMinRows {V : Type} [LinearOrder V] (ops : DoubleOps V) (colIdx : Nat) :
    List CSVRow → Bool → V → V → Except Err (V × V)
  | [], _, maxVal, minVal => .ok (maxVal, minVal)
  | row :: more, first, maxVal, minVal =>
    match parseField ops row colIdx with
    | .error e => .error e
    | .ok val =>
      if first then maxMinRows ops colIdx more false val val
      else
        maxMinRows ops colIdx more false (if val > maxVal then val else maxVal)
          (if val < minVal then val else minVal)

/-- The text the specification gives for an export: the header names joined by
single commas and a newline, then for each row in order its fields joined by
single commas and a newline. -/
def exportText (headers : List Str) (rows : List CSVRow) : Str :=
  [','].intercalate headers ++ ['\n'] ++
    (rows.map fun row => [','].intercalate row.data ++ ['\n']).flatten

/-- Two analyzers on the same source: the same header names and the same file
content, whatever the read positions and state bits. -/
def sameSource (a b : CSVAnalyzer) : Prop :=
  a.headers = b.headers ∧ a.reader.file.content = b.reader.file.content

/-! ## Streams, lines and rows -/

theorem pieces_cons (d c : Char) (cs : Str) :
    pieces d (c :: cs) =
      if c = d then [] :: pieces d cs
      else
        match pieces d cs with
        | [] => [[c]]
        | p :: ps => (c :: p) :: ps := rfl

theorem takeLine_some (d : Char) : ∀ (r l r' : Str), takeLine d r = (l, some r') →
    r = l ++ d :: r' ∧ d ∉ l ∧ pieces d r = l :: pieces d r'
  | [], l, r', h => by simp [takeLine] at h
  | c :: cs, l, r', h => by
    by_cases hc : c = d
    · simp [takeLine, hc] at h
      obtain ⟨rfl, rfl⟩ := h
      simp [pieces, hc]
    · simp only [takeLine, hc, if_false, Prod.mk.injEq] at h
      obtain ⟨rfl, h2⟩ := h
      have ih := takeLine_some d cs (takeLine d cs).1 r' (Prod.ext rfl h2)
      obtain ⟨e, hn, hp⟩ := ih
      refine ⟨by rw [List.cons_append, ← e], ?_, ?_⟩
      · simp only [List.mem_cons, not_or]
        exact ⟨fun h => hc h.symm, hn⟩
      · simp [pieces, hc, hp]

theorem takeLine_none (d : Char) : ∀ (r l : Str), takeLine d r = (l, none) →
    r = l ∧ d ∉ l ∧ (r ≠ [] → pieces d r = [l])
  | [], l, h => by
    simp [takeLine] at h
    subst h
    simp
  | c :: cs, l, h => by
    by_cases hc : c = d
    · simp [takeLine, hc] at h
    · simp only [takeLine, hc, if_false, Prod.mk.injEq] at h
      obtain ⟨rfl, h2⟩ := h
      obtain ⟨e, hn, hp⟩ := takeLine_none d cs (takeLine d cs).1 (Prod.ext rfl h2)
      refine ⟨by rw [← e], ?_, fun _ => ?_⟩
      · simp only [List.mem_cons, not_or]
        exact ⟨fun h => hc h.symm, hn⟩
      · rw [← e]
        cases cs with
        | nil => simp [pieces, hc]
        | cons c2 cs2 =>
          have h3 := hp (by simp)
          rw [pieces_cons, if_neg hc, h3, ← e]

theorem getline_bad (s : IStream) (str : Str) (d : Char)
    (h : (s.eofbit || s.failbit) = true) :
    getline s str d = ({ s with failbit := true }, str) := by
  simp [getline, h]

theorem getline_nil (s : IStream) (str : Str) (d : Char)
    (he : s.eofbit = false) (hf : s.failbit = false) (hr : s.rest = []) :
    getline s str d = ({ s with eofbit := true, failbit := true }, []) := by
  simp [getline, he, hf, hr]

theorem getline_some (s : IStream) (str : Str) (d : Char) (l r' : Str)
    (he : s.eofbit = false) (hf : s.failbit = false) (ht : takeLine d s.rest = (l, some r')) :
    getline s str d = ({ s with rest := r' }, l) := by
  cases hr : s.rest with
  | nil => rw [hr] at ht; simp [takeLine] at ht
  | cons c cs =>
    rw [hr] at ht
    simp [getline, he, hf, hr, ht]

theorem getline_none (s : IStream) (str : Str) (d : Char) (l : Str)
    (he : s.eofbit = false) (hf : s.failbit = false) (hr : s.rest ≠ [])
    (ht : takeLine d s.rest = (l, none)) :
    getline s str d = ({ s with rest := [], eofbit := true }, l) := by
  cases hr2 : s.rest with
  | nil => exact absurd hr2 hr
  | cons c cs =>
    rw [hr2] at ht
    simp [getline, he, hf, hr2, ht]

/-- The splitting loop, started on a good stream with more fuel than unread
characters, appends the pieces of the unread text. -/
theorem readCellsLoop_eq : ∀ (fuel : Nat) (content rest cell : Str) (data : List Str),
    rest.length < fuel →
    readCellsLoop fuel { content := content, rest := rest, eofbit := false, failbit := false }
      cell data = data ++ pieces ',' rest
  | 0, _, _, _, _, h => by simp at h
  | fuel + 1, content, rest, cell, data, h => by
    rw [readCellsLoop]
    by_cases hr : rest = []
    · subst hr
      rw [getline_nil _ cell ',' rfl rfl rfl]
      simp [pieces]
    · cases ht : takeLine ',' rest with
      | mk l o =>
        cases o with
        | some r' =>
          obtain ⟨e, -, hp⟩ := takeLine_some ',' _ _ _ ht
          rw [getline_some _ cell ',' l r' rfl rfl ht]
          have hlen : r'.length < fuel := by
            have : rest.length = l.length + (r'.length + 1) := by rw [e]; simp
            omega
          simp only [Bool.false_eq_true, if_false]
          rw [readCellsLoop_eq fuel content r' l (data ++ [l]) hlen, hp]
          simp
        | none =>
          obtain ⟨-, -, hp⟩ := takeLine_none ',' _ _ ht
          rw [getline_none _ cell ',' l rfl rfl hr ht]
          simp only [Bool.false_eq_true, if_false]
          cases fuel with
          | zero =>
            cases rest with
            | nil => exact absurd rfl hr
            | cons c cs => simp at h
          | succ n =>
            rw [readCellsLoop, getline_bad _ _ _ (by simp)]
            simp [hp hr]

theorem readCells_eq (line : Str) : readCells line = pieces ',' line := by
  unfold readCells
  unfold IStream.ofText
  rw [readCellsLoop_eq _ _ _ _ _ (Nat.lt_succ_self _)]
  simp

theorem pieces_eq_nil (d : Char) (l : Str) : pieces d l = [] ↔ l = [] := by
  cases l with
  | nil => simp [pieces]
  | cons c cs =>
    rw [pieces_cons]
    by_cases hc : c = d
    · simp [hc]
    · simp only [hc, if_false]
      cases pieces d cs <;> simp

theorem readCells_isEmpty (l : Str) : (readCells l).isEmpty = l.isEmpty := by
  rw [readCells_eq]
  cases l with
  | nil => simp [pieces]
  | cons c cs =>
    have h := (pieces_eq_nil ',' (c :: cs)).not.mpr (by simp)
    cases hp : pieces ',' (c :: cs) with
    | nil => exact absurd hp h
    | cons a b => simp

theorem rowsOfLines_cons (l : Str) (ls : List Str) :
    rowsOfLines (l :: ls) =
      if l.isEmpty then [] else { data := readCells l } :: rowsOfLines ls := by
  unfold rowsOfLines
  cases h : l.isEmpty <;> simp [List.takeWhile_cons, h]

/-- What one call of `readRow` does to the rows still to come, and what it
leaves alone. -/
theorem readRow_spec (r : CSVReader) (row : CSVRow) :
    ((r.readRow row).2.2 = true →
        rowsFrom r.file = (r.readRow row).2.1 :: rowsFrom (r.readRow row).1.file ∧
        (r.readRow row).1.file.rest.length < r.file.rest.length) ∧
    ((r.readRow row).2.2 = false → rowsFrom r.file = []) ∧
    (r.readRow row).1.file.content = r.file.content ∧
    (r.readRow row).1.headers = r.headers ∧
    (r.readRow row).1.headerLine = r.headerLine := by
  obtain ⟨⟨content, rest, eofbit, failbit⟩, headerLine, headers⟩ := r
  cases eofbit with
  | true => simp [CSVReader.readRow, rowsFrom]
  | false =>
    cases failbit with
    | true =>
      simp [CSVReader.readRow, rowsFrom, CSVRow.readNextRow, getline_bad, readCells_isEmpty]
    | false =>
      by_cases hr : rest = []
      · subst hr
        simp [CSVReader.readRow, rowsFrom, CSVRow.readNextRow, getline_nil, readCells_isEmpty,
          pieces, rowsOfLines]
      · cases ht : takeLine '\n' rest with
        | mk l o =>
          cases o with
          | some r' =>
            obtain ⟨e, -, hp⟩ := takeLine_some '\n' _ _ _ ht
            have hg := getline_some ⟨content, rest, false, false⟩ [] '\n' l r' rfl rfl ht
            have hlen : r'.length < rest.length := by rw [e]; simp; omega
            simp only [CSVReader.readRow, rowsFrom, CSVRow.readNextRow, hg, hp, rowsOfLines_cons,
              readCells_isEmpty]
            cases hl : l.isEmpty <;> simp [hlen]
          | none =>
            obtain ⟨e, -, hp⟩ := takeLine_none '\n' _ _ ht
            have hg := getline_none ⟨content, rest, false, false⟩ [] '\n' l rfl rfl hr ht
            have hl : l.isEmpty = false := by
              rw [← e]
              cases rest with
              | nil => exact absurd rfl hr
              | cons c cs => rfl
            simp [CSVReader.readRow, rowsFrom, CSVRow.readNextRow, hg, hp hr, rowsOfLines_cons,
              readCells_isEmpty, hl, rowsOfLines, hr, List.length_pos.mpr hr]

theorem rowsFrom_create (text : Str) : rowsFrom (CSVReader.create text).file = dataRows text := by
  unfold CSVReader.create IStream.ofText dataRows
  by_cases hr : text = []
  · subst hr
    simp [getline_nil, rowsFrom, pieces, rowsOfLines]
  · cases ht : takeLine '\n' text with
    | mk l o =>
      cases o with
      | some r' =>
        obtain ⟨-, -, hp⟩ := takeLine_some '\n' _ _ _ ht
        rw [getline_some ⟨text, text, false, false⟩ [] '\n' l r' rfl rfl ht]
        simp [rowsFrom, hp]
      | none =>
        obtain ⟨-, -, hp⟩ := takeLine_none '\n' _ _ ht
        rw [getline_none ⟨text, text, false, false⟩ [] '\n' l rfl rfl hr ht]
        simp [rowsFrom, hp hr, rowsOfLines]

/-- The stream part of `getline` on a good stream does not depend on the
string it is given. -/
theorem getline_good_fst (s : IStream) (str str' : Str) (d : Char)
    (he : s.eofbit = false) (hf : s.failbit = false) :
    getline s str d = getline s str' d := by
  simp [getline, he, hf]

/-- After `reset` the file and the header line are those of a reader just
constructed on the same text, whatever the state before. -/
theorem reset_eq (r : CSVReader) :
    r.reset = { CSVReader.create r.file.content with headers := r.headers } := by
  unfold CSVReader.reset CSVReader.create IStream.clear IStream.seekgBeg IStream.ofText
  simp only [Bool.false_eq_true, if_false]
  rw [getline_good_fst _ r.headerLine [] '\n' rfl rfl]

theorem rowsFrom_reset (r : CSVReader) : rowsFrom r.reset.file = dataRows r.file.content := by
  rw [reset_eq]
  exact rowsFrom_create _

theorem filterLoop_fst (p : CSVRow → Bool) : ∀ (fuel : Nat) (r : CSVReader) (row : CSVRow)
    (result : List CSVRow), r.file.rest.length < fuel →
    (filterLoop p fuel r row result).1 = result ++ (rowsFrom r.file).filter p
  | 0, _, _, _, h => by simp at h
  | fuel + 1, r, row, result, h => by
    obtain ⟨ht, hf, -⟩ := readRow_spec r row
    rw [filterLoop]
    rcases hrr : r.readRow row with ⟨r', row', b⟩
    rw [hrr] at ht hf
    cases b with
    | false => simp [hf rfl]
    | true =>
      obtain ⟨h1, h2⟩ := ht rfl
      simp only at h1 h2 ⊢
      rw [filterLoop_fst p fuel r' row' _ (by omega), h1]
      by_cases hp : p row' = true <;> simp [hp, List.filter_cons]

theorem create_content (text : Str) : (CSVReader.create text).file.content = text := by
  unfold CSVReader.create
  simp only [getline, IStream.ofText, Bool.or_self, Bool.false_eq_true, if_false]
  split
  · rfl
  · split <;> rfl

/-- The rows `filter` returns: the rows of the file on which the predicate
holds. -/
theorem filter_fst_eq (a : CSVAnalyzer) (p : CSVRow → Bool) :
    (a.filter p).1 = (dataRows a.reader.file.content).filter p := by
  unfold CSVAnalyzer.filter
  simp only
  rw [filterLoop_fst p _ _ _ _ (Nat.lt_succ_self _), rowsFrom_reset]
  simp

theorem pieces_append_delim (d : Char) : ∀ (l r : Str), d ∉ l →
    pieces d (l ++ d :: r) = l :: pieces d r
  | [], r, _ => by simp [pieces_cons]
  | c :: cs, r, h => by
    simp only [List.mem_cons, not_or] at h
    have hc : ¬ c = d := fun e => h.1 e.symm
    rw [List.cons_append, pieces_cons, if_neg hc, pieces_append_delim d cs r h.2]

theorem pieces_no_delim (d : Char) : ∀ (l : Str), d ∉ l → l ≠ [] → pieces d l = [l]
  | [], _, h => absurd rfl h
  | [c], h, _ => by
    simp only [List.mem_cons, not_or] at h
    have hc : ¬ c = d := fun e => h.1 e.symm
    simp [pieces_cons, hc, pieces]
  | c :: c2 :: cs, h, _ => by
    simp only [List.mem_cons, not_or] at h
    have hc : ¬ c = d := fun e => h.1 e.symm
    have ih := pieces_no_delim d (c2 :: cs) (by simp only [List.mem_cons, not_or]; exact h.2)
      (by simp)
    rw [pieces_cons, if_neg hc, ih]

theorem rowsOfLines_of_nonempty : ∀ (lines : List Str), (∀ l ∈ lines, l ≠ []) →
    rowsOfLines lines = lines.map fun l => { data := readCells l }
  | [], _ => rfl
  | l :: ls, h => by
    have hl : l.isEmpty = false := by
      cases l with
      | nil => exact absurd rfl (h [] (by simp))
      | cons c cs => rfl
    rw [rowsOfLines_cons, hl, rowsOfLines_of_nonempty ls fun x hx => h x (by simp [hx])]
    simp

theorem pieces_textOfLines (nl : Bool) : ∀ (lines : List Str),
    (∀ l ∈ lines, '\n' ∉ l ∧ l ≠ []) → pieces '\n' (textOfLines lines nl) = lines
  | [], _ => rfl
  | [l], h => by
    obtain ⟨h1, h2⟩ := h l (by simp)
    cases nl with
    | true =>
      simp only [textOfLines, if_true]
      rw [pieces_append_delim _ _ _ h1]
      rfl
    | false =>
      simp only [textOfLines, Bool.false_eq_true, if_false]
      exact pieces_no_delim _ _ h1 h2
  | l :: l2 :: ls, h => by
    obtain ⟨h1, -⟩ := h l (by simp)
    rw [textOfLines, pieces_append_delim _ _ _ h1,
      pieces_textOfLines nl (l2 :: ls) fun x hx => h x (List.mem_cons_of_mem _ hx)]

theorem dataRows_textOfLines (header : Str) (lines : List Str) (nl : Bool)
    (hh : '\n' ∉ header) (hl : ∀ l ∈ lines, '\n' ∉ l ∧ l ≠ []) :
    dataRows (textOfLines (header :: lines) nl) = lines.map fun l => { data := readCells l } := by
  have key : (pieces '\n' (textOfLines (header :: lines) nl)).tail = lines := by
    cases lines with
    | nil =>
      cases nl with
      | true =>
        simp only [textOfLines, if_true]
        rw [pieces_append_delim _ _ _ hh]
        rfl
      | false =>
        simp only [textOfLines, Bool.false_eq_true, if_false]
        by_cases he : header = []
        · subst he; rfl
        · rw [pieces_no_delim _ _ hh he]; rfl
    | cons l ls =>
      rw [textOfLines, pieces_append_delim _ _ _ hh, pieces_textOfLines nl (l :: ls) hl]
      rfl
  unfold dataRows
  rw [key]
  exact rowsOfLines_of_nonempty lines fun l h => (hl l h).2

/-! ## C1: `filter` with the always-true predicate -/

/-- C1: on a file made of a header line followed by `N` data lines, none of
them blank, `filter` with the always-true predicate returns exactly `N` rows,
the `i`-th of them being the parse of the `i`-th data line; the newline after
the last line may be there or not. -/
theorem filter_true_returns_every_row (header : Str) (lines : List Str) (finalNewline : Bool)
    (hheader : '\n' ∉ header) (hlines : ∀ l ∈ lines, '\n' ∉ l ∧ l ≠ []) :
    ((CSVAnalyzer.create (CSVReader.create (textOfLines (header :: lines) finalNewline))).filter
        fun _ => true).1 = lines.map (fun l => { data := readCells l }) ∧
    ((CSVAnalyzer.create (CSVReader.create (textOfLines (header :: lines) finalNewline))).filter
        fun _ => true).1.length = lines.length := by
  have h : ((CSVAnalyzer.create (CSVReader.create
      (textOfLines (header :: lines) finalNewline))).filter fun _ => true).1 =
      lines.map (fun l => { data := readCells l }) := by
    rw [filter_fst_eq]
    simp only [CSVAnalyzer.create, create_content, List.filter_true]
    exact dataRows_textOfLines header lines finalNewline hheader hlines
  exact ⟨h, by rw [h, List.length_map]⟩

/-- C1 at the file `name,score / a,10 / b,20 / a,30`: three rows, in order. -/
theorem filter_true_returns_every_row_witness :
    '\n' ∉ "name,score".toList ∧
    (∀ l ∈ ["a,10".toList, "b,20".toList, "a,30".toList], '\n' ∉ l ∧ l ≠ []) ∧
    ((CSVAnalyzer.create (CSVReader.create
        (textOfLines ("name,score".toList :: ["a,10".toList, "b,20".toList, "a,30".toList])
          true))).filter fun _ => true).1 =
      [{ data := ["a".toList, "10".toList] }, { data := ["b".toList, "20".toList] },
        { data := ["a".toList, "30".toList] }] :=
  ⟨by decide, by decide,
    (filter_true_returns_every_row "name,score".toList
      ["a,10".toList, "b,20".toList, "a,30".toList] true (by decide) (by decide)).1.trans
      (by decide)⟩

theorem parseField_numberAt {V : Type} (ops : DoubleOps V) (c : Nat) (row : CSVRow)
    (h : ∃ v, parseField ops row c = .ok v) :
    parseField ops row c = .ok (numberAt ops c row) := by
  obtain ⟨v, hv⟩ := h
  simp [numberAt, hv]

theorem maxMinLoop_fst {V : Type} [LinearOrder V] (ops : DoubleOps V) (c : Nat) :
    ∀ (fuel : Nat) (r : CSVReader) (row : CSVRow) (first : Bool) (mx mn : V),
    r.file.rest.length < fuel →
    (∀ x ∈ rowsFrom r.file, ∃ v, parseField ops x c = .ok v) →
    (maxMinLoop ops c fuel r row first mx mn).1 =
      .ok (maxMinFold first mx mn ((rowsFrom r.file).map (numberAt ops c)))
  | 0, _, _, _, _, _, h, _ => by simp at h
  | fuel + 1, r, row, first, mx, mn, h, hv => by
    obtain ⟨ht, hf, -⟩ := readRow_spec r row
    rw [maxMinLoop]
    rcases hrr : r.readRow row with ⟨r', row', b⟩
    rw [hrr] at ht hf
    cases b with
    | false => simp [hf rfl, maxMinFold]
    | true =>
      obtain ⟨h1, h2⟩ := ht rfl
      simp only at h1 h2 ⊢
      rw [h1] at hv
      have hrow := parseField_numberAt ops c row' (hv row' (by simp))
      have hrest : ∀ x ∈ rowsFrom r'.file, ∃ v, parseField ops x c = .ok v :=
        fun x hx => hv x (by simp [hx])
      rw [hrow, h1]
      simp only [List.map_cons]
      cases first with
      | true =>
        simp only [if_true]
        rw [maxMinLoop_fst ops c fuel r' row' false _ _ (by omega) hrest]
        rfl
      | false =>
        simp only [Bool.false_eq_true, if_false]
        rw [maxMinLoop_fst ops c fuel r' row' false _ _ (by omega) hrest]
        rfl

/-- The fold from a seeded state: both results are reached, by the seed or by a
later value, and they bound the seeds and every later value. -/
theorem maxMinFold_false {V : Type} [LinearOrder V] : ∀ (vs : List V) (mx mn : V),
    (mx ≤ (maxMinFold false mx mn vs).1 ∧ (∀ v ∈ vs, v ≤ (maxMinFold false mx mn vs).1) ∧
      ((maxMinFold false mx mn vs).1 = mx ∨ (maxMinFold false mx mn vs).1 ∈ vs)) ∧
    ((maxMinFold false mx mn vs).2 ≤ mn ∧ (∀ v ∈ vs, (maxMinFold false mx mn vs).2 ≤ v) ∧
      ((maxMinFold false mx mn vs).2 = mn ∨ (maxMinFold false mx mn vs).2 ∈ vs))
  | [], mx, mn => by simp [maxMinFold]
  | v :: vs, mx, mn => by
    obtain ⟨⟨a1, a2, a3⟩, b1, b2, b3⟩ :=
      maxMinFold_false vs (if v > mx then v else mx) (if v < mn then v else mn)
    rw [maxMinFold]
    refine ⟨⟨?_, ?_, ?_⟩, ?_, ?_, ?_⟩
    · refine le_trans ?_ a1
      split
      · exact le_of_lt ‹_›
      · exact le_refl _
    · intro x hx
      rcases List.mem_cons.mp hx with rfl | hx
      · refine le_trans ?_ a1
        split
        · exact le_refl _
        · exact not_lt.mp ‹_›
      · exact a2 x hx
    · rcases a3 with a3 | a3
      · rw [a3]
        split
        · right; simp
        · left; rfl
      · right; exact List.mem_cons_of_mem _ a3
    · refine le_trans b1 ?_
      split
      · exact le_of_lt ‹_›
      · exact le_refl _
    · intro x hx
      rcases List.mem_cons.mp hx with rfl | hx
      · refine le_trans b1 ?_
        split
        · exact le_refl _
        · exact not_lt.mp ‹_›
      · exact b2 x hx
    · rcases b3 with b3 | b3
      · rw [b3]
        split
        · right; simp
        · left; rfl
      · right; exact List.mem_cons_of_mem _ b3

theorem maxMinFold_true {V : Type} [LinearOrder V] (v : V) (vs : List V) (mx mn : V) :
    (∀ x ∈ v :: vs, (maxMinFold true mx mn (v :: vs)).2 ≤ x ∧
      x ≤ (maxMinFold true mx mn (v :: vs)).1) ∧
    (maxMinFold true mx mn (v :: vs)).1 ∈ v :: vs ∧
    (maxMinFold true mx mn (v :: vs)).2 ∈ v :: vs := by
  obtain ⟨⟨a1, a2, a3⟩, b1, b2, b3⟩ := maxMinFold_false vs v v
  rw [maxMinFold]
  refine ⟨fun x hx => ?_, ?_, ?_⟩
  · rcases List.mem_cons.mp hx with rfl | hx
    · exact ⟨b1, a1⟩
    · exact ⟨b2 x hx, a2 x hx⟩
  · rcases a3 with a3 | a3
    · rw [a3]; simp
    · exact List.mem_cons_of_mem _ a3
  · rcases b3 with b3 | b3
    · rw [b3]; simp
    · exact List.mem_cons_of_mem _ b3

theorem analyzerOf_content (text : Str) : (analyzerOf text).reader.file.content = text :=
  create_content text

/-- What `getMaxMin` returns on a resolved column whose values all convert. -/
theorem getMaxMin_fst_eq {V : Type} [LinearOrder V] (ops : DoubleOps V) (a : CSVAnalyzer)
    (columnName : Str) (colIdx : Nat) (max0 min0 : V)
    (hcol : a.getColumnIndex columnName = .ok colIdx)
    (hnum : ∀ row ∈ dataRows a.reader.file.content, ∃ v, parseField ops row colIdx = .ok v) :
    (a.getMaxMin ops columnName max0 min0).1 =
      .ok (maxMinFold true max0 min0
        ((dataRows a.reader.file.content).map (numberAt ops colIdx))) := by
  unfold CSVAnalyzer.getMaxMin
  rw [hcol]
  simp only
  rw [maxMinLoop_fst ops colIdx _ _ _ _ _ _ (Nat.lt_succ_self _) (by rw [rowsFrom_reset]; exact hnum),
    rowsFrom_reset]

/-! ## C2: `getMaxMin` -/

/-- C2: on a file with at least one data row whose values in the chosen column
all convert to numbers, `getMaxMin` returns a maximum and a minimum such that
the value of every scanned row lies between them, and each of the two is the
value of some scanned row. -/
theorem getMaxMin_bounds_attained {V : Type} [LinearOrder V] (ops : DoubleOps V) (text : Str)
    (columnName : Str) (colIdx : Nat) (max0 min0 : V)
    (hcol : (analyzerOf text).getColumnIndex columnName = .ok colIdx)
    (hrows : dataRows text ≠ [])
    (hnum : ∀ row ∈ dataRows text, ∃ v, parseField ops row colIdx = .ok v) :
    ∃ maxVal minVal,
      ((analyzerOf text).getMaxMin ops columnName max0 min0).1 = .ok (maxVal, minVal) ∧
      (∀ row ∈ dataRows text, ∀ v, parseField ops row colIdx = .ok v →
        minVal ≤ v ∧ v ≤ maxVal) ∧
      (∃ row ∈ dataRows text, parseField ops row colIdx = .ok maxVal) ∧
      (∃ row ∈ dataRows text, parseField ops row colIdx = .ok minVal) := by
  have hnum' : ∀ row ∈ dataRows (analyzerOf text).reader.file.content,
      ∃ v, parseField ops row colIdx = .ok v := by
    rw [analyzerOf_content]; exact hnum
  have hval : ∀ row ∈ dataRows text,
      parseField ops row colIdx = .ok (numberAt ops colIdx row) :=
    fun row h => parseField_numberAt ops colIdx row (hnum row h)
  refine ⟨_, _, getMaxMin_fst_eq ops _ columnName colIdx max0 min0 hcol hnum', ?_⟩
  rw [analyzerOf_content]
  cases hd : dataRows text with
  | nil => exact absurd hd hrows
  | cons row0 more =>
    rw [hd] at hval
    rw [List.map_cons]
    obtain ⟨hb, hmax, hmin⟩ := maxMinFold_true (numberAt ops colIdx row0)
      (more.map (numberAt ops colIdx)) max0 min0
    rw [← List.map_cons] at hb hmax hmin
    refine ⟨fun row hrow v hv => ?_, ?_, ?_⟩
    · have e : v = numberAt ops colIdx row := by
        have := (hval row hrow).symm.trans hv
        injection this with this
        exact this.symm
      rw [e]
      exact hb _ (List.mem_map_of_mem _ hrow)
    · obtain ⟨row, hrow, e⟩ := List.mem_map.mp hmax
      exact ⟨row, hrow, by rw [← List.map_cons, ← e]; exact hval row hrow⟩
    · obtain ⟨row, hrow, e⟩ := List.mem_map.mp hmin
      exact ⟨row, hrow, by rw [← List.map_cons, ← e]; exact hval row hrow⟩

theorem sample_dataRows :
    dataRows "name,score\na,10\nb,20\na,30\n".toList =
      [{ data := ["a".toList, "10".toList] }, { data := ["b".toList, "20".toList] },
        { data := ["a".toList, "30".toList] }] := by
  decide

theorem sample_numbers :
    ∀ row ∈ dataRows "name,score\na,10\nb,20\na,30\n".toList,
      ∃ v, parseField exactOps row 1 = .ok v := by
  rw [sample_dataRows]
  intro row hrow
  simp only [List.mem_cons, List.mem_singleton, List.not_mem_nil, or_false] at hrow
  rcases hrow with rfl | rfl | rfl
  · exact ⟨10, by decide!⟩
  · exact ⟨20, by decide!⟩
  · exact ⟨30, by decide!⟩

/-- C2 at the file `name,score / a,10 / b,20 / a,30` and the column `score`:
the maximum is 30 and the minimum is 10. -/
theorem getMaxMin_bounds_attained_witness :
    (∃ maxVal minVal,
      ((analyzerOf "name,score\na,10\nb,20\na,30\n".toList).getMaxMin exactOps "score".toList
        0 0).1 = .ok (maxVal, minVal) ∧
      (∀ row ∈ dataRows "name,score\na,10\nb,20\na,30\n".toList, ∀ v,
        parseField exactOps row 1 = .ok v → minVal ≤ v ∧ v ≤ maxVal) ∧
      (∃ row ∈ dataRows "name,score\na,10\nb,20\na,30\n".toList,
        parseField exactOps row 1 = .ok maxVal) ∧
      (∃ row ∈ dataRows "name,score\na,10\nb,20\na,30\n".toList,
        parseField exactOps row 1 = .ok minVal)) ∧
    ((analyzerOf "name,score\na,10\nb,20\na,30\n".toList).getMaxMin exactOps "score".toList
      0 0).1 = .ok (30, 10) :=
  ⟨getMaxMin_bounds_attained exactOps "name,score\na,10\nb,20\na,30\n".toList "score".toList 1
      0 0 (by decide) (by decide) sample_numbers,
    by decide!⟩

theorem readAllLoop_fst : ∀ (fuel : Nat) (r : CSVReader) (row : CSVRow)
    (allRows : List CSVRow), r.file.rest.length < fuel →
    (readAllLoop fuel r row allRows).1 = allRows ++ rowsFrom r.file
  | 0, _, _, _, h => by simp at h
  | fuel + 1, r, row, allRows, h => by
    obtain ⟨ht, hf, -⟩ := readRow_spec r row
    rw [readAllLoop]
    rcases hrr : r.readRow row with ⟨r', row', b⟩
    rw [hrr] at ht hf
    cases b with
    | false => simp [hf rfl]
    | true =>
      obtain ⟨h1, h2⟩ := ht rfl
      simp only at h1 h2 ⊢
      rw [readAllLoop_fst fuel r' row' _ (by omega), h1]
      simp

/-- The rows `sortByColumn` reads before sorting: the rows of the file. -/
theorem readAll_reset (r : CSVReader) :
    (readAllLoop (r.reset.file.rest.length + 1) r.reset { data := [] } []).1 =
      dataRows r.file.content := by
  rw [readAllLoop_fst _ _ _ _ (Nat.lt_succ_self _), rowsFrom_reset]
  simp

/-- The linear insertion, on a range held nearest first and ordered that way,
with a comparator that returns and decides `k a < k b`, and with an element in
the range that stops the walk. -/
theorem unguardedLinearInsert_spec {α W : Type} [LinearOrder W]
    (comp : α → α → Except Err Bool) (k : α → W) (val : α) :
    ∀ (range : List α), (∀ b ∈ range, comp val b = .ok (decide (k val < k b))) →
    range.Pairwise (fun a b => k b ≤ k a) → (∃ e ∈ range, ¬ k val < k e) →
    ∃ out, unguardedLinearInsert comp val range = .ok out ∧ out.Perm (val :: range) ∧
      out.Pairwise (fun a b => k b ≤ k a)
  | [], _, _, hg => by
    obtain ⟨e, he, -⟩ := hg
    simp at he
  | next :: before, hc, hs, hg => by
    rw [unguardedLinearInsert, hc next (by simp)]
    by_cases hlt : k val < k next
    · simp only [hlt, decide_True]
      have hg' : ∃ e ∈ before, ¬ k val < k e := by
        obtain ⟨e, he, hne⟩ := hg
        rcases List.mem_cons.mp he with rfl | he
        · exact absurd hlt hne
        · exact ⟨e, he, hne⟩
      obtain ⟨moved, hm, hperm, hsorted⟩ := unguardedLinearInsert_spec comp k val before
        (fun b hb => hc b (List.mem_cons_of_mem _ hb)) (List.Pairwise.of_cons hs) hg'
      rw [hm]
      refine ⟨next :: moved, rfl, ?_, ?_⟩
      · exact (List.Perm.cons next hperm).trans (List.Perm.swap val next before)
      · refine List.Pairwise.cons (fun x hx => ?_) hsorted
        rcases List.mem_cons.mp (hperm.mem_iff.mp hx) with rfl | hx
        · exact le_of_lt hlt
        · exact List.rel_of_pairwise_cons hs hx
    · simp only [hlt, decide_False]
      refine ⟨val :: next :: before, rfl, List.Perm.refl _, List.Pairwise.cons (fun x hx => ?_) hs⟩
      rcases List.mem_cons.mp hx with rfl | hx
      · exact not_lt.mp hlt
      · exact le_trans (List.rel_of_pairwise_cons hs hx) (not_lt.mp hlt)

theorem insertionSortLoop_spec {α W : Type} [LinearOrder W]
    (comp : α → α → Except Err Bool) (k : α → W) :
    ∀ (todo sorted : List α),
    (∀ a ∈ sorted ++ todo, ∀ b ∈ sorted ++ todo, comp a b = .ok (decide (k a < k b))) →
    sorted.Pairwise (fun a b => k a ≤ k b) →
    ∃ out, insertionSortLoop comp sorted todo = .ok out ∧ out.Perm (sorted ++ todo) ∧
      out.Pairwise (fun a b => k a ≤ k b)
  | [], sorted, _, hs => ⟨sorted, by rw [insertionSortLoop], by simp, hs⟩
  | x :: todo, [], hc, _ => by
    rw [insertionSortLoop]
    exact insertionSortLoop_spec comp k todo [x] hc (List.pairwise_singleton _ _)
  | x :: todo, first :: others, hc, hs => by
    rw [insertionSortLoop, hc x (by simp) first (by simp)]
    have hperm0 : (x :: first :: others ++ todo).Perm (first :: others ++ x :: todo) :=
      (@List.perm_middle _ x (first :: others) todo).symm
    by_cases hlt : k x < k first
    · simp only [hlt, decide_True]
      have hs' : (x :: first :: others).Pairwise (fun a b => k a ≤ k b) := by
        refine List.Pairwise.cons (fun y hy => ?_) hs
        rcases List.mem_cons.mp hy with rfl | hy
        · exact le_of_lt hlt
        · exact le_trans (le_of_lt hlt) (List.rel_of_pairwise_cons hs hy)
      obtain ⟨out, ho, hp, hso⟩ := insertionSortLoop_spec comp k todo (x :: first :: others)
        (fun a ha b hb => hc a (hperm0.mem_iff.mp ha) b (hperm0.mem_iff.mp hb)) hs'
      exact ⟨out, ho, hp.trans hperm0, hso⟩
    · simp only [hlt, decide_False]
      obtain ⟨placed, hpl, hpp, hps⟩ := unguardedLinearInsert_spec comp k x
        (first :: others).reverse
        (fun b hb => hc x (by simp) b
          (List.mem_append_left _ (List.mem_reverse.mp hb)))
        (List.pairwise_reverse.mpr hs)
        ⟨first, by simp, hlt⟩
      rw [hpl]
      have hperm1 : placed.reverse.Perm (x :: first :: others) :=
        (List.reverse_perm placed).trans
          (hpp.trans (List.Perm.cons x (List.reverse_perm (first :: others))))
      have hperm2 : (placed.reverse ++ todo).Perm (first :: others ++ x :: todo) :=
        (List.Perm.append_right todo hperm1).trans hperm0
      obtain ⟨out, ho, hp, hso⟩ := insertionSortLoop_spec comp k todo placed.reverse
        (fun a ha b hb => hc a (hperm2.mem_iff.mp ha) b (hperm2.mem_iff.mp hb))
        (List.pairwise_reverse.mpr hps)
      exact ⟨out, ho, hp.trans hperm2, hso⟩

/-- The sort returns an ordered permutation whenever the comparator returns on
the elements of the range and decides `k a < k b` in a linear order. -/
theorem stdSort_spec {α W : Type} [LinearOrder W] (comp : α → α → Except Err Bool)
    (k : α → W) (l : List α)
    (hc : ∀ a ∈ l, ∀ b ∈ l, comp a b = .ok (decide (k a < k b))) :
    ∃ out, stdSort comp l = .ok out ∧ out.Perm l ∧ out.Pairwise (fun a b => k a ≤ k b) := by
  cases l with
  | nil => exact ⟨[], rfl, List.Perm.refl _, List.Pairwise.nil⟩
  | cons first todo =>
    rw [stdSort]
    exact insertionSortLoop_spec comp k todo [first] hc (List.pairwise_singleton _ _)

theorem sortComparator_eq {V : Type} [LinearOrder V] (ops : DoubleOps V) (c : Nat)
    (descending : Bool) (a b : CSVRow)
    (ha : ∃ v, parseField ops a c = .ok v) (hb : ∃ v, parseField ops b c = .ok v) :
    sortComparator ops c descending a b =
      .ok (if descending then decide (numberAt ops c b < numberAt ops c a)
        else decide (numberAt ops c a < numberAt ops c b)) := by
  unfold sortComparator
  rw [parseField_numberAt ops c a ha, parseField_numberAt ops c b hb]

/-- The result of `sortByColumn` on a resolved column whose values all convert:
an ordered permutation of the rows of the file. -/
theorem sortByColumn_fst_spec {V : Type} [LinearOrder V] (ops : DoubleOps V) (a : CSVAnalyzer)
    (columnName : Str) (colIdx : Nat) (descending : Bool)
    (hcol : a.getColumnIndex columnName = .ok colIdx)
    (hnum : ∀ row ∈ dataRows a.reader.file.content, ∃ v, parseField ops row colIdx = .ok v) :
    ∃ out, (a.sortByColumn ops columnName descending).1 = .ok out ∧
      out.Perm (dataRows a.reader.file.content) ∧
      (descending = false →
        out.Pairwise fun x y => numberAt ops colIdx x ≤ numberAt ops colIdx y) ∧
      (descending = true →
        out.Pairwise fun x y => numberAt ops colIdx x ≥ numberAt ops colIdx y) := by
  unfold CSVAnalyzer.sortByColumn
  rw [hcol]
  simp only
  rw [readAll_reset]
  cases descending with
  | false =>
    obtain ⟨out, ho, hp, hs⟩ := stdSort_spec (sortComparator ops colIdx false)
      (numberAt ops colIdx) (dataRows a.reader.file.content)
      (fun x hx y hy => by rw [sortComparator_eq ops colIdx false x y (hnum x hx) (hnum y hy)]; rfl)
    exact ⟨out, ho, hp, fun _ => hs, fun h => by simp at h⟩
  | true =>
    obtain ⟨out, ho, hp, hs⟩ := stdSort_spec (sortComparator ops colIdx true)
      (fun row => OrderDual.toDual (numberAt ops colIdx row)) (dataRows a.reader.file.content)
      (fun x hx y hy => by rw [sortComparator_eq ops colIdx true x y (hnum x hx) (hnum y hy)]; rfl)
    exact ⟨out, ho, hp, fun h => by simp at h, fun _ => hs⟩

/-! ## C3: `sortByColumn` -/

/-- C3: on a file whose values in the sort column all convert to numbers,
`sortByColumn` returns a permutation of the scanned rows (the same rows with
the same multiplicities, hence as many) in which the value of a row is at most
that of every later row when `descending` is false, and at least that of every
later row when `descending` is true. -/
theorem sortByColumn_sorted_permutation {V : Type} [LinearOrder V] (ops : DoubleOps V)
    (text : Str) (columnName : Str) (colIdx : Nat) (descending : Bool)
    (hcol : (analyzerOf text).getColumnIndex columnName = .ok colIdx)
    (hnum : ∀ row ∈ dataRows text, ∃ v, parseField ops row colIdx = .ok v) :
    ∃ out, ((analyzerOf text).sortByColumn ops columnName descending).1 = .ok out ∧
      out.Perm (dataRows text) ∧ out.length = (dataRows text).length ∧
      (descending = false →
        out.Pairwise fun x y => numberAt ops colIdx x ≤ numberAt ops colIdx y) ∧
      (descending = true →
        out.Pairwise fun x y => numberAt ops colIdx x ≥ numberAt ops colIdx y) := by
  obtain ⟨out, ho, hp, h1, h2⟩ := sortByColumn_fst_spec ops (analyzerOf text) columnName colIdx
    descending hcol (by rw [analyzerOf_content]; exact hnum)
  rw [analyzerOf_content] at hp
  exact ⟨out, ho, hp, hp.length_eq, h1, h2⟩

/-- C3 at the file `name,score / a,10 / b,20 / a,30`, sorted by `score`
descending: the rows a(30), b(20), a(10). -/
theorem sortByColumn_sorted_permutation_witness :
    (∃ out, ((analyzerOf "name,score\na,10\nb,20\na,30\n".toList).sortByColumn exactOps
        "score".toList true).1 = .ok out ∧
      out.Perm (dataRows "name,score\na,10\nb,20\na,30\n".toList) ∧
      out.length = (dataRows "name,score\na,10\nb,20\na,30\n".toList).length ∧
      (true = false → out.Pairwise fun x y => numberAt exactOps 1 x ≤ numberAt exactOps 1 y) ∧
      (true = true → out.Pairwise fun x y => numberAt exactOps 1 x ≥ numberAt exactOps 1 y)) ∧
    ((analyzerOf "name,score\na,10\nb,20\na,30\n".toList).sortByColumn exactOps
        "score".toList true).1 =
      .ok [{ data := ["a".toList, "30".toList] }, { data := ["b".toList, "20".toList] },
        { data := ["a".toList, "10".toList] }] :=
  ⟨sortByColumn_sorted_permutation exactOps "name,score\na,10\nb,20\na,30\n".toList
      "score".toList 1 true (by decide) sample_numbers,
    by decide!⟩

theorem strLt_irrefl : ∀ (a : Str), strLt a a = false
  | [] => rfl
  | c :: cs => by simp [strLt, strLt_irrefl cs]

theorem strLt_trans : ∀ (a b c : Str), strLt a b = true → strLt b c = true → strLt a c = true
  | _, [], _, h, _ => by simp [strLt] at h
  | _, _ :: _, [], _, h => by simp [strLt] at h
  | [], _ :: _, _ :: _, _, _ => rfl
  | x :: a, y :: b, z :: c, h1, h2 => by
    simp only [strLt] at h1 h2 ⊢
    by_cases hxy : x < y
    · by_cases hyz : y < z
      · simp [lt_trans hxy hyz]
      · simp only [hyz, if_false] at h2
        by_cases hzy : z < y
        · simp [hzy] at h2
        · have e : y = z := le_antisymm (not_lt.mp hzy) (not_lt.mp hyz)
          subst e
          simp [hxy]
    · simp only [hxy, if_false] at h1
      by_cases hyx : y < x
      · simp [hyx] at h1
      · have e : x = y := le_antisymm (not_lt.mp hyx) (not_lt.mp hxy)
        subst e
        simp only [hyx, if_false] at h1
        by_cases hxz : x < z
        · simp [hxz]
        · simp only [hxz, if_false] at h2 ⊢
          by_cases hzx : z < x
          · simp [hzx] at h2
          · simp only [hzx, if_false] at h2 ⊢
            exact strLt_trans a b c h1 h2

theorem strLt_connected : ∀ (a b : Str), strLt a b = false → strLt b a = false → a = b
  | [], [], _, _ => rfl
  | [], _ :: _, h, _ => by simp [strLt] at h
  | _ :: _, [], _, h => by simp [strLt] at h
  | x :: a, y :: b, h1, h2 => by
    simp only [strLt] at h1 h2
    by_cases hxy : x < y
    · simp [hxy] at h1
    · by_cases hyx : y < x
      · simp [hyx] at h2
      · have e : x = y := le_antisymm (not_lt.mp hyx) (not_lt.mp hxy)
        subst e
        simp only [hxy, if_false] at h1 h2
        rw [strLt_connected a b h1 h2]

theorem strLt_ne (a b : Str) (h : strLt a b = true) : a ≠ b := by
  rintro rfl
  rw [strLt_irrefl] at h
  exact Bool.false_ne_true h

/-- The keys of a map after `groups[key].push_back(val)`. -/
theorem groupsPush_keys {V : Type} (key : Str) (val : V) : ∀ (g : Groups V) (k : Str),
    k ∈ (groupsPush key val g).map Prod.fst → k = key ∨ k ∈ g.map Prod.fst
  | [], k, h => by
    simp [groupsPush] at h
    exact Or.inl h
  | (k0, vs0) :: more, k, h => by
    rw [groupsPush] at h
    split at h
    · simpa using h
    · split at h
      · simp only [List.map_cons, List.mem_cons] at h ⊢
        rcases h with h | h
        · exact Or.inr (Or.inl h)
        · rcases groupsPush_keys key val more k h with h | h
          · exact Or.inl h
          · exact Or.inr (Or.inr h)
      · simp only [List.map_cons, List.mem_cons] at h ⊢
        exact Or.inr h

/-- The key order of a map is kept by `groups[key].push_back(val)`. -/
theorem groupsPush_sorted {V : Type} (key : Str) (val : V) : ∀ (g : Groups V),
    g.Pairwise (fun e f => strLt e.1 f.1 = true) →
    (groupsPush key val g).Pairwise (fun e f => strLt e.1 f.1 = true)
  | [], _ => by simp [groupsPush]
  | (k0, vs0) :: more, hs => by
    rw [groupsPush]
    split
    · rename_i hlt
      refine List.Pairwise.cons (fun f hf => ?_) hs
      rcases List.mem_cons.mp hf with rfl | hf
      · exact hlt
      · exact strLt_trans _ _ _ hlt (List.rel_of_pairwise_cons hs hf)
    · split
      · rename_i hlt
        refine List.Pairwise.cons (fun f hf => ?_)
          (groupsPush_sorted key val more (List.Pairwise.of_cons hs))
        rcases groupsPush_keys key val more f.1 (List.mem_map_of_mem _ hf) with h | h
        · rw [h]; exact hlt
        · obtain ⟨f', hf', e⟩ := List.mem_map.mp h
          rw [← e]
          exact List.rel_of_pairwise_cons hs hf'
      · exact List.Pairwise.cons (fun f hf => List.rel_of_pairwise_cons hs hf)
          (List.Pairwise.of_cons hs)

/-- The entries of a map in key order after `groups[key].push_back(val)`: the
entries of the other keys, and the entry of `key` with `val` appended, created
when it was absent. -/
theorem groupsPush_mem {V : Type} (key : Str) (val : V) : ∀ (g : Groups V),
    g.Pairwise (fun e f => strLt e.1 f.1 = true) → ∀ (k : Str) (vs : List V),
    ((k, vs) ∈ groupsPush key val g ↔
      (k ≠ key ∧ (k, vs) ∈ g) ∨
      (k = key ∧ ((∃ old, (key, old) ∈ g ∧ vs = old ++ [val]) ∨
        ((∀ old, (key, old) ∉ g) ∧ vs = [val]))))
  | [], _, k, vs => by
    simp [groupsPush]
  | (k0, vs0) :: more, hs, k, vs => by
    have hlater : ∀ old, (key, old) ∈ more → strLt k0 key = true :=
      fun old h => List.rel_of_pairwise_cons hs h
    rw [groupsPush]
    split
    · rename_i hlt
      have habs : ∀ old, (key, old) ∉ (k0, vs0) :: more := by
        intro old h
        rcases List.mem_cons.mp h with h | h
        · injection h with h1 _
          rw [h1, strLt_irrefl] at hlt
          exact Bool.false_ne_true hlt
        · have := strLt_trans _ _ _ hlt (hlater old h)
          rw [strLt_irrefl] at this
          exact Bool.false_ne_true this
      constructor
      · intro h
        rcases List.mem_cons.mp h with h | h
        · injection h with h1 h2
          exact Or.inr ⟨h1, Or.inr ⟨habs, h2⟩⟩
        · by_cases hk : k = key
          · rw [hk] at h
            exact absurd h (habs vs)
          · exact Or.inl ⟨hk, h⟩
      · rintro (⟨-, h⟩ | ⟨rfl, ⟨old, h, -⟩ | ⟨-, rfl⟩⟩)
        · exact List.mem_cons_of_mem _ h
        · exact absurd h (habs old)
        · exact List.mem_cons_self _ _
    · split
      · rename_i hnlt hlt
        have hne : k0 ≠ key := strLt_ne _ _ hlt
        have ih := groupsPush_mem key val more (List.Pairwise.of_cons hs) k vs
        simp only [List.mem_cons, Prod.mk.injEq, ih]
        constructor
        · rintro (⟨rfl, rfl⟩ | ⟨hk, h⟩ | ⟨rfl, ⟨old, h, e⟩ | ⟨h, e⟩⟩)
          · exact Or.inl ⟨hne, Or.inl ⟨rfl, rfl⟩⟩
          · exact Or.inl ⟨hk, Or.inr h⟩
          · exact Or.inr ⟨rfl, Or.inl ⟨old, Or.inr h, e⟩⟩
          · refine Or.inr ⟨rfl, Or.inr ⟨fun old ho => ?_, e⟩⟩
            rcases ho with ⟨h1, -⟩ | ho
            · exact hne h1.symm
            · exact h old ho
        · rintro (⟨hk, ⟨rfl, rfl⟩ | h⟩ | ⟨rfl, ⟨old, ⟨h1, -⟩ | h, e⟩ | ⟨h, e⟩⟩)
          · exact Or.inl ⟨rfl, rfl⟩
          · exact Or.inr (Or.inl ⟨hk, h⟩)
          · exact absurd h1.symm hne
          · exact Or.inr (Or.inr ⟨rfl, Or.inl ⟨old, h, e⟩⟩)
          · exact Or.inr (Or.inr ⟨rfl, Or.inr ⟨fun old ho => h old (Or.inr ho), e⟩⟩)
      · rename_i hnlt hngt
        have e0 : key = k0 := strLt_connected _ _ (by simpa using hnlt) (by simpa using hngt)
        subst e0
        have hnot : ∀ old, (key, old) ∉ more := by
          intro old h
          have := hlater old h
          rw [strLt_irrefl] at this
          exact Bool.false_ne_true this
        simp only [List.mem_cons, Prod.mk.injEq]
        constructor
        · rintro (⟨rfl, rfl⟩ | h)
          · exact Or.inr ⟨rfl, Or.inl ⟨vs0, Or.inl (by simp), rfl⟩⟩
          · by_cases hk : k = key
            · rw [hk] at h
              exact absurd h (hnot vs)
            · exact Or.inl ⟨hk, Or.inr h⟩
        · rintro (⟨hk, ⟨h1, -⟩ | h⟩ | ⟨rfl, ⟨old, ⟨-, rfl⟩ | h, e⟩ | ⟨h, -⟩⟩)
          · exact absurd h1 hk
          · exact Or.inr h
          · exact Or.inl ⟨rfl, e⟩
          · exact absurd h (hnot old)
          · exact absurd (Or.inl (by simp)) (h vs0)

theorem get_fieldAt (idx : Nat) (row : CSVRow) (h : ∃ key, row.get idx = .ok key) :
    row.get idx = .ok (fieldAt idx row) := by
  obtain ⟨key, hk⟩ := h
  simp [fieldAt, hk]

theorem groupLoop_fst {V : Type} (ops : DoubleOps V) (gi vi : Nat) :
    ∀ (fuel : Nat) (r : CSVReader) (row : CSVRow) (g : Groups V),
    r.file.rest.length < fuel →
    (∀ x ∈ rowsFrom r.file, (∃ key, x.get gi = .ok key) ∧ ∃ v, parseField ops x vi = .ok v) →
    (groupLoop ops gi vi fuel r row g).1 =
      .ok ((rowsFrom r.file).foldl
        (fun acc x => groupsPush (fieldAt gi x) (numberAt ops vi x) acc) g)
  | 0, _, _, _, h, _ => by simp at h
  | fuel + 1, r, row, g, h, hv => by
    obtain ⟨ht, hf, -⟩ := readRow_spec r row
    rw [groupLoop]
    rcases hrr : r.readRow row with ⟨r', row', b⟩
    rw [hrr] at ht hf
    cases b with
    | false => simp [hf rfl]
    | true =>
      obtain ⟨h1, h2⟩ := ht rfl
      simp only at h1 h2 ⊢
      rw [h1] at hv
      obtain ⟨hk, hn⟩ := hv row' (by simp)
      rw [get_fieldAt gi row' hk, parseField_numberAt ops vi row' hn, h1]
      simp only [List.foldl_cons]
      exact groupLoop_fst ops gi vi fuel r' row' _ (by omega) fun x hx => hv x (by simp [hx])

/-- The map built by pushing the rows one by one: it stays in key order, and
its entries are the keys that occur, each with the values of its rows in scan
order. -/
theorem groups_fold_inv {V : Type} (kf : CSVRow → Str) (vf : CSVRow → V) :
    ∀ (rows seen : List CSVRow) (g : Groups V),
    g.Pairwise (fun e f => strLt e.1 f.1 = true) →
    (∀ k vs, (k, vs) ∈ g ↔
      vs = (seen.filter fun x => decide (kf x = k)).map vf ∧ vs ≠ []) →
    (rows.foldl (fun acc x => groupsPush (kf x) (vf x) acc) g).Pairwise
      (fun e f => strLt e.1 f.1 = true) ∧
    ∀ k vs, (k, vs) ∈ rows.foldl (fun acc x => groupsPush (kf x) (vf x) acc) g ↔
      vs = ((seen ++ rows).filter fun x => decide (kf x = k)).map vf ∧ vs ≠ []
  | [], seen, g, hs, hm => by simpa using ⟨hs, hm⟩
  | x :: rows, seen, g, hs, hm => by
    have step := groups_fold_inv kf vf rows (seen ++ [x]) (groupsPush (kf x) (vf x) g)
      (groupsPush_sorted _ _ g hs) (fun k vs => by
        rw [groupsPush_mem (kf x) (vf x) g hs k vs]
        by_cases hk : k = kf x
        · subst hk
          simp only [ne_eq, not_true_eq_false, false_and, true_and, false_or, List.filter_append,
            List.map_append, List.filter_cons, decide_True, if_true, List.filter_nil,
            List.map_cons, List.map_nil]
          constructor
          · rintro (⟨old, ho, rfl⟩ | ⟨hno, rfl⟩)
            · rw [((hm _ _).mp ho).1]
              simp
            · have : (seen.filter fun y => decide (kf y = kf x)).map vf = [] := by
                by_contra hne
                exact hno _ ((hm _ _).mpr ⟨rfl, hne⟩)
              rw [this]
              simp
          · rintro ⟨rfl, -⟩
            by_cases hne : (seen.filter fun y => decide (kf y = kf x)).map vf = []
            · right
              refine ⟨fun old ho => ?_, by rw [hne]; rfl⟩
              obtain ⟨e, hn⟩ := (hm _ _).mp ho
              exact hn (e.trans hne)
            · left
              exact ⟨_, (hm _ _).mpr ⟨rfl, hne⟩, rfl⟩
        · have hk' : ¬ kf x = k := fun e => hk e.symm
          simp [hk, hk', hm, List.filter_append, List.filter_cons])
    simpa using step

/-- The lines `groupByAndAverage` prints on resolved columns when every row has
the group column and a value that converts: one per key that occurs, in key
order, with the average of the values of the rows of that key. -/
theorem groupByAndAverage_fst_spec {V : Type} (ops : DoubleOps V) (a : CSVAnalyzer)
    (groupCol valueCol : Str) (groupIdx valueIdx : Nat)
    (hgroup : a.getColumnIndex groupCol = .ok groupIdx)
    (hvalue : a.getColumnIndex valueCol = .ok valueIdx)
    (hrows : ∀ row ∈ dataRows a.reader.file.content,
      (∃ key, row.get groupIdx = .ok key) ∧ ∃ v, parseField ops row valueIdx = .ok v) :
    ∃ out, (a.groupByAndAverage ops groupCol valueCol).1 = .ok out ∧
      out.Pairwise (fun e f => strLt e.1 f.1 = true) ∧
      (∀ key, key ∈ out.map Prod.fst ↔
        ∃ row ∈ dataRows a.reader.file.content, fieldAt groupIdx row = key) ∧
      ∀ key avg, (key, avg) ∈ out →
        avg = average ops (((dataRows a.reader.file.content).filter
          fun row => decide (fieldAt groupIdx row = key)).map (numberAt ops valueIdx)) := by
  have hloop := groupLoop_fst ops groupIdx valueIdx (a.reader.reset.file.rest.length + 1)
    a.reader.reset { data := [] } [] (Nat.lt_succ_self _) (by rw [rowsFrom_reset]; exact hrows)
  rw [rowsFrom_reset] at hloop
  obtain ⟨hs, hm⟩ := groups_fold_inv (fieldAt groupIdx) (numberAt ops valueIdx)
    (dataRows a.reader.file.content) [] [] List.Pairwise.nil (by simp)
  simp only [List.nil_append] at hm
  unfold CSVAnalyzer.groupByAndAverage
  rw [hgroup, hvalue]
  simp only
  generalize hG : (dataRows a.reader.file.content).foldl
    (fun acc x => groupsPush (fieldAt groupIdx x) (numberAt ops valueIdx x) acc) [] = G at *
  rcases hgl : groupLoop ops groupIdx valueIdx (a.reader.reset.file.rest.length + 1)
    a.reader.reset { data := [] } [] with ⟨res, r'⟩
  rw [hgl] at hloop
  simp only at hloop
  subst hloop
  refine ⟨_, rfl, ?_, ?_, ?_⟩
  · exact List.Pairwise.map _ (fun _ _ h => h) hs
  · intro key
    simp only [List.map_map, List.mem_map, Function.comp, Prod.exists, exists_and_right,
      exists_eq_right]
    constructor
    · rintro ⟨vs, hmem⟩
      obtain ⟨e, hne⟩ := (hm key vs).mp hmem
      rw [e] at hne
      cases hf : (dataRows a.reader.file.content).filter
        fun row => decide (fieldAt groupIdx row = key) with
      | nil => rw [hf] at hne; exact absurd rfl hne
      | cons row more =>
        have hin : row ∈ (dataRows a.reader.file.content).filter
            fun row => decide (fieldAt groupIdx row = key) := by rw [hf]; simp
        rw [List.mem_filter] at hin
        exact ⟨row, hin.1, of_decide_eq_true hin.2⟩
    · rintro ⟨row, hrow, hk⟩
      refine ⟨_, (hm key _).mpr ⟨rfl, ?_⟩⟩
      have hin : row ∈ (dataRows a.reader.file.content).filter
          fun row => decide (fieldAt groupIdx row = key) :=
        List.mem_filter.mpr ⟨hrow, decide_eq_true hk⟩
      intro h0
      have := List.mem_map_of_mem (numberAt ops valueIdx) hin
      rw [h0] at this
      simp at this
  · intro key avg hmem
    obtain ⟨⟨k, vs⟩, he, heq⟩ := List.mem_map.mp hmem
    simp only [Prod.mk.injEq] at heq
    obtain ⟨rfl, rfl⟩ := heq
    rw [((hm k vs).mp he).1]

theorem fieldAt_eq_iff (idx : Nat) (row : CSVRow) (key : Str)
    (h : ∃ k, row.get idx = .ok k) : fieldAt idx row = key ↔ row.get idx = .ok key := by
  rw [get_fieldAt idx row h]
  constructor
  · intro e; rw [e]
  · intro e; injection e

/-! ## C4: `groupByAndAverage` -/

/-- C4: on resolved columns, when every scanned row has the group column and a
value that converts, `groupByAndAverage` prints exactly one entry for each key
text that occurs in the scanned rows, the entries are in strictly ascending
lexicographic order of their keys, and the value of each entry is the sum of
the values of exactly the rows with that key, divided by their count. -/
theorem groupByAndAverage_entries {V : Type} (ops : DoubleOps V) (text : Str)
    (groupCol valueCol : Str) (groupIdx valueIdx : Nat)
    (hgroup : (analyzerOf text).getColumnIndex groupCol = .ok groupIdx)
    (hvalue : (analyzerOf text).getColumnIndex valueCol = .ok valueIdx)
    (hrows : ∀ row ∈ dataRows text,
      (∃ key, row.get groupIdx = .ok key) ∧ ∃ v, parseField ops row valueIdx = .ok v) :
    ∃ out, ((analyzerOf text).groupByAndAverage ops groupCol valueCol).1 = .ok out ∧
      out.Pairwise (fun e f => strLt e.1 f.1 = true) ∧
      (out.map Prod.fst).Nodup ∧
      (∀ key, key ∈ out.map Prod.fst ↔ ∃ row ∈ dataRows text, row.get groupIdx = .ok key) ∧
      ∀ key avg, (key, avg) ∈ out →
        avg = ops.divSize
          ((((dataRows text).filter fun row => decide (row.get groupIdx = .ok key)).map
            (numberAt ops valueIdx)).foldl ops.add ops.zero)
          (((dataRows text).filter fun row => decide (row.get groupIdx = .ok key)).map
            (numberAt ops valueIdx)).length := by
  obtain ⟨out, ho, hs, hk, ha⟩ := groupByAndAverage_fst_spec ops (analyzerOf text) groupCol
    valueCol groupIdx valueIdx hgroup hvalue (by rw [analyzerOf_content]; exact hrows)
  rw [analyzerOf_content] at hk ha
  have hfilter : ∀ key, ((dataRows text).filter fun row => decide (fieldAt groupIdx row = key)) =
      (dataRows text).filter fun row => decide (row.get groupIdx = .ok key) := by
    intro key
    refine List.filter_congr fun row hrow => ?_
    rw [decide_eq_decide]
    exact fieldAt_eq_iff groupIdx row key (hrows row hrow).1
  refine ⟨out, ho, hs, ?_, ?_, ?_⟩
  · exact List.Pairwise.map _ (fun e f h => strLt_ne e.1 f.1 h) hs
  · intro key
    rw [hk key]
    constructor
    · rintro ⟨row, hrow, e⟩
      exact ⟨row, hrow, (fieldAt_eq_iff groupIdx row key (hrows row hrow).1).mp e⟩
    · rintro ⟨row, hrow, e⟩
      exact ⟨row, hrow, (fieldAt_eq_iff groupIdx row key (hrows row hrow).1).mpr e⟩
  · intro key avg hmem
    rw [ha key avg hmem, hfilter key]
    rfl

theorem sample_keys_numbers :
    ∀ row ∈ dataRows "name,score\na,10\nb,20\na,30\n".toList,
      (∃ key, row.get 0 = .ok key) ∧ ∃ v, parseField exactOps row 1 = .ok v := by
  intro row hrow
  refine ⟨?_, sample_numbers row hrow⟩
  rw [sample_dataRows] at hrow
  simp only [List.mem_cons, List.mem_singleton, List.not_mem_nil, or_false] at hrow
  rcases hrow with rfl | rfl | rfl
  · exact ⟨"a".toList, by decide⟩
  · exact ⟨"b".toList, by decide⟩
  · exact ⟨"a".toList, by decide⟩

/-- C4 at the file `name,score / a,10 / b,20 / a,30`, grouped by `name` and
averaged over `score`: the entries `a: 20` and `b: 20`. -/
theorem groupByAndAverage_entries_witness :
    (∃ out, ((analyzerOf "name,score\na,10\nb,20\na,30\n".toList).groupByAndAverage exactOps
        "name".toList "score".toList).1 = .ok out ∧
      out.Pairwise (fun e f => strLt e.1 f.1 = true) ∧
      (out.map Prod.fst).Nodup ∧
      (∀ key, key ∈ out.map Prod.fst ↔
        ∃ row ∈ dataRows "name,score\na,10\nb,20\na,30\n".toList, row.get 0 = .ok key) ∧
      ∀ key avg, (key, avg) ∈ out →
        avg = exactOps.divSize
          ((((dataRows "name,score\na,10\nb,20\na,30\n".toList).filter
            fun row => decide (row.get 0 = .ok key)).map
              (numberAt exactOps 1)).foldl exactOps.add exactOps.zero)
          (((dataRows "name,score\na,10\nb,20\na,30\n".toList).filter
            fun row => decide (row.get 0 = .ok key)).map (numberAt exactOps 1)).length) ∧
    ((analyzerOf "name,score\na,10\nb,20\na,30\n".toList).groupByAndAverage exactOps
        "name".toList "score".toList).1 = .ok [("a".toList, 20), ("b".toList, 20)] :=
  ⟨groupByAndAverage_entries exactOps "name,score\na,10\nb,20\na,30\n".toList "name".toList
      "score".toList 0 1 (by decide) (by decide) sample_keys_numbers,
    by decide!⟩

/-- C4, as stated, fails on a row that lacks the group column: in the file
`score,name / 10` both columns resolve and the only value converts, yet the
scan reads `row[1]` of a one-field row and no entry is printed. -/
theorem groupByAndAverage_short_row :
    (analyzerOf "score,name\n10\n".toList).getColumnIndex "name".toList = .ok 1 ∧
    (analyzerOf "score,name\n10\n".toList).getColumnIndex "score".toList = .ok 0 ∧
    dataRows "score,name\n10\n".toList = [{ data := ["10".toList] }] ∧
    parseField exactOps { data := ["10".toList] } 0 = .ok 10 ∧
    ((analyzerOf "score,name\n10\n".toList).groupByAndAverage exactOps "name".toList
      "score".toList).1 = .error .indexPastEnd := by
  refine ⟨by decide, by decide, by decide, by decide!, by decide!⟩

theorem getColumnIndexFrom_ok (name : Str) : ∀ (headers : List Str) (n i : Nat),
    getColumnIndexFrom name headers n = .ok i ↔
      n ≤ i ∧ headers[i - n]? = some name ∧ ∀ j, j < i - n → headers[j]? ≠ some name
  | [], n, i => by simp [getColumnIndexFrom]
  | h :: more, n, i => by
    rw [getColumnIndexFrom]
    by_cases hh : h = name
    · subst hh
      simp only [if_true, Except.ok.injEq]
      constructor
      · rintro rfl
        simp
      · rintro ⟨hle, -, hmin⟩
        by_contra hne
        have hpos : 0 < i - n := by omega
        exact hmin 0 hpos (by simp)
    · simp only [hh, if_false]
      rw [getColumnIndexFrom_ok name more (n + 1) i]
      constructor
      · rintro ⟨hle, hget, hmin⟩
        have e : i - n = (i - (n + 1)) + 1 := by omega
        refine ⟨by omega, ?_, fun j hj => ?_⟩
        · rw [e, List.getElem?_cons_succ]
          exact hget
        · cases j with
          | zero => simpa using hh
          | succ j =>
            rw [List.getElem?_cons_succ]
            exact hmin j (by omega)
      · rintro ⟨hle, hget, hmin⟩
        have hlt : n < i := by
          rcases Nat.lt_or_ge n i with h | h
          · exact h
          · have e0 : i - n = 0 := by omega
            rw [e0] at hget
            simp at hget
            exact absurd hget hh
        have e : i - n = (i - (n + 1)) + 1 := by omega
        refine ⟨by omega, ?_, fun j hj => ?_⟩
        · rw [e, List.getElem?_cons_succ] at hget
          exact hget
        · have := hmin (j + 1) (by omega)
          rwa [List.getElem?_cons_succ] at this

theorem getColumnIndexFrom_error (name : Str) : ∀ (headers : List Str) (n : Nat) (e : Err),
    getColumnIndexFrom name headers n = .error e ↔ e = .columnNotFound name ∧ name ∉ headers
  | [], n, e => by
    simp only [getColumnIndexFrom, Except.error.injEq, List.not_mem_nil, not_false_eq_true,
      and_true]
    exact eq_comm
  | h :: more, n, e => by
    rw [getColumnIndexFrom]
    by_cases hh : h = name
    · subst hh
      simp
    · simp only [hh, if_false]
      rw [getColumnIndexFrom_error name more (n + 1) e]
      have : ¬ name = h := fun e => hh e.symm
      simp [this]

/-! ## C5: `getColumnIndex` -/

/-- C5: `getColumnIndex` fails, with `ColumnNotFound`, exactly when no stored
header name is equal to the requested name; it has no other failure and no
default position; and it returns `i` exactly when `i` is the smallest position
whose header name is equal to the requested name. -/
theorem getColumnIndex_resolution (a : CSVAnalyzer) (name : Str) :
    (a.getColumnIndex name = .error (.columnNotFound name) ↔ name ∉ a.headers) ∧
    (∀ e, a.getColumnIndex name = .error e → e = .columnNotFound name) ∧
    (name ∉ a.headers → ∀ i, a.getColumnIndex name ≠ .ok i) ∧
    (name ∈ a.headers → ∃ i, a.getColumnIndex name = .ok i) ∧
    ∀ i, a.getColumnIndex name = .ok i ↔
      a.headers[i]? = some name ∧ ∀ j, j < i → a.headers[j]? ≠ some name := by
  unfold CSVAnalyzer.getColumnIndex
  refine ⟨?_, ?_, ?_, ?_, ?_⟩
  · rw [getColumnIndexFrom_error]
    simp
  · intro e h
    exact ((getColumnIndexFrom_error name a.headers 0 e).mp h).1
  · intro hn i h
    cases hres : getColumnIndexFrom name a.headers 0 with
    | ok j => exact absurd (List.getElem?_mem ((getColumnIndexFrom_ok name _ 0 j).mp hres).2.1) hn
    | error e => rw [hres] at h; cases h
  · intro hin
    cases hres : getColumnIndexFrom name a.headers 0 with
    | ok j => exact ⟨j, rfl⟩
    | error e => exact absurd hin ((getColumnIndexFrom_error name _ 0 e).mp hres).2
  · intro i
    rw [getColumnIndexFrom_ok]
    simp

/-- Resolution compares the characters exactly: in the header `name,score` the
name `Score` is not found and `score` is at position 1; with the header
`x,y,x` the name `x` resolves to position 0. -/
theorem getColumnIndex_examples :
    (analyzerOf "name,score\na,10\n".toList).getColumnIndex "Score".toList =
      .error (.columnNotFound "Score".toList) ∧
    (analyzerOf "name,score\na,10\n".toList).getColumnIndex "score".toList = .ok 1 ∧
    (analyzerOf "x,y,x\n1,2,3\n".toList).getColumnIndex "x".toList = .ok 0 := by
  decide

theorem scanRows_eq (text : Str) : scanRows text = dataRows text := by
  unfold scanRows
  rw [filter_fst_eq, analyzerOf_content]
  simp

theorem unguardedLinearInsert_perm {α : Type} (comp : α → α → Except Err Bool) (val : α) :
    ∀ (range out : List α), unguardedLinearInsert comp val range = .ok out →
    out.Perm (val :: range)
  | [], out, h => by simp [unguardedLinearInsert] at h
  | next :: before, out, h => by
    rw [unguardedLinearInsert] at h
    split at h
    · cases h
    · injection h with h
      rw [← h]
    · split at h
      · cases h
      · rename_i moved hm
        injection h with h
        rw [← h]
        exact (List.Perm.cons next (unguardedLinearInsert_perm comp val before moved hm)).trans
          (List.Perm.swap val next before)

theorem insertionSortLoop_perm {α : Type} (comp : α → α → Except Err Bool) :
    ∀ (todo sorted out : List α), insertionSortLoop comp sorted todo = .ok out →
    out.Perm (sorted ++ todo)
  | [], sorted, out, h => by
    rw [insertionSortLoop] at h
    injection h with h
    rw [← h]
    simp
  | x :: todo, [], out, h => by
    rw [insertionSortLoop] at h
    exact insertionSortLoop_perm comp todo [x] out h
  | x :: todo, first :: others, out, h => by
    have hperm0 : (x :: first :: others ++ todo).Perm (first :: others ++ x :: todo) :=
      (@List.perm_middle _ x (first :: others) todo).symm
    rw [insertionSortLoop] at h
    split at h
    · cases h
    · exact (insertionSortLoop_perm comp todo _ out h).trans hperm0
    · split at h
      · cases h
      · rename_i placed hp
        have hperm1 : placed.reverse.Perm (x :: first :: others) :=
          (List.reverse_perm placed).trans
            ((unguardedLinearInsert_perm comp x _ placed hp).trans
              (List.Perm.cons x (List.reverse_perm (first :: others))))
        exact (insertionSortLoop_perm comp todo _ out h).trans
          ((List.Perm.append_right todo hperm1).trans hperm0)

/-- Whatever the comparator, a sort that returns has permuted the range. -/
theorem stdSort_perm {α : Type} (comp : α → α → Except Err Bool) (l out : List α)
    (h : stdSort comp l = .ok out) : out.Perm l := by
  cases l with
  | nil =>
    rw [stdSort] at h
    injection h with h
    rw [← h]
  | cons first todo =>
    rw [stdSort] at h
    exact insertionSortLoop_perm comp todo [first] out h

/-- The rows `sortByColumn` returns are a permutation of the rows of the
file, whether or not the values convert. -/
theorem sortByColumn_perm {V : Type} [LinearOrder V] (ops : DoubleOps V) (a : CSVAnalyzer)
    (columnName : Str) (descending : Bool) (out : List CSVRow)
    (h : (a.sortByColumn ops columnName descending).1 = .ok out) :
    out.Perm (dataRows a.reader.file.content) := by
  unfold CSVAnalyzer.sortByColumn at h
  split at h
  · cases h
  · simp only at h
    rw [readAll_reset] at h
    exact stdSort_perm _ _ _ h

theorem pieces_mem (d : Char) : ∀ (l p : Str), p ∈ pieces d l → d ∉ p ∧ ∀ c ∈ p, c ∈ l
  | [], p, h => by simp [pieces] at h
  | c :: cs, p, h => by
    rw [pieces_cons] at h
    by_cases hc : c = d
    · simp only [hc, if_true, List.mem_cons] at h
      rcases h with rfl | h
      · simp
      · obtain ⟨h1, h2⟩ := pieces_mem d cs p h
        exact ⟨h1, fun x hx => List.mem_cons_of_mem _ (h2 x hx)⟩
    · simp only [hc, if_false] at h
      cases hp : pieces d cs with
      | nil =>
        rw [hp] at h
        simp only [List.mem_singleton] at h
        subst h
        refine ⟨?_, fun x hx => List.mem_cons.mpr (Or.inl (List.mem_singleton.mp hx))⟩
        simp only [List.mem_singleton]
        exact fun e => hc e.symm
      | cons q qs =>
        rw [hp] at h
        simp only [List.mem_cons] at h
        have hq := pieces_mem d cs q (by rw [hp]; simp)
        rcases h with rfl | h
        · refine ⟨?_, fun x hx => ?_⟩
          · simp only [List.mem_cons, not_or]
            exact ⟨fun e => hc e.symm, hq.1⟩
          · rcases List.mem_cons.mp hx with rfl | hx
            · simp
            · exact List.mem_cons_of_mem _ (hq.2 x hx)
        · obtain ⟨h1, h2⟩ := pieces_mem d cs p (by rw [hp]; exact List.mem_cons_of_mem _ h)
          exact ⟨h1, fun x hx => List.mem_cons_of_mem _ (h2 x hx)⟩

/-- The fields of a line without a newline: at least one when the line is not
empty, and none of them holds a comma or a newline. -/
theorem readCells_fields (line : Str) (hline : '\n' ∉ line) :
    (line ≠ [] → readCells line ≠ []) ∧
    ∀ f ∈ readCells line, ',' ∉ f ∧ '\n' ∉ f := by
  rw [readCells_eq]
  refine ⟨fun h => (pieces_eq_nil ',' line).not.mpr h, fun f hf => ?_⟩
  obtain ⟨h1, h2⟩ := pieces_mem ',' line f hf
  exact ⟨h1, fun h => hline (h2 _ h)⟩

theorem rowsOfLines_mem (lines : List Str) (row : CSVRow) (h : row ∈ rowsOfLines lines) :
    ∃ line ∈ lines, line ≠ [] ∧ row = { data := readCells line } := by
  unfold rowsOfLines at h
  obtain ⟨line, hl, e⟩ := List.mem_map.mp h
  refine ⟨line, (List.takeWhile_sublist _).subset hl, ?_, e.symm⟩
  have := List.mem_takeWhile_imp hl
  intro h0
  rw [h0] at this
  simp at this

/-- Every row of a file has a field, and its fields hold no comma and no
newline. -/
theorem dataRows_fields (text : Str) (row : CSVRow) (h : row ∈ dataRows text) :
    row.data ≠ [] ∧ ∀ f ∈ row.data, ',' ∉ f ∧ '\n' ∉ f := by
  obtain ⟨line, hl, hne, rfl⟩ := rowsOfLines_mem _ row h
  have hnl : '\n' ∉ line := (pieces_mem '\n' text line (List.mem_of_mem_tail hl)).1
  exact ⟨(readCells_fields line hnl).1 hne, (readCells_fields line hnl).2⟩

theorem pieces_writeFields : ∀ (fs : List Str), fs ≠ [] → (∀ f ∈ fs, ',' ∉ f) →
    fs.getLast? ≠ some [] → pieces ',' (writeFields fs) = fs
  | [], h, _, _ => absurd rfl h
  | [f], _, hc, hl => by
    rw [writeFields]
    exact pieces_no_delim ',' f (hc f (by simp)) (fun e => hl (by simp [e]))
  | f :: g :: more, _, hc, hl => by
    rw [writeFields, pieces_append_delim ',' f _ (hc f (by simp)),
      pieces_writeFields (g :: more) (by simp) (fun x hx => hc x (List.mem_cons_of_mem _ hx))
        (by rw [List.getLast?_cons_cons] at hl; exact hl)]

theorem writeFields_no_newline : ∀ (fs : List Str), (∀ f ∈ fs, '\n' ∉ f) →
    '\n' ∉ writeFields fs
  | [], _ => by simp [writeFields]
  | [f], h => by
    rw [writeFields]
    exact h f (by simp)
  | f :: g :: more, h => by
    rw [writeFields]
    simp only [List.mem_append, List.mem_cons, not_or]
    exact ⟨h f (by simp), by decide,
      writeFields_no_newline (g :: more) fun x hx => h x (List.mem_cons_of_mem _ hx)⟩

theorem pieces_writeRows : ∀ (rows : List CSVRow),
    (∀ row ∈ rows, '\n' ∉ writeFields row.data) →
    pieces '\n' (writeRows rows) = rows.map fun row => writeFields row.data
  | [], _ => rfl
  | row :: more, h => by
    rw [writeRows, pieces_append_delim '\n' _ _ (h row (by simp)),
      pieces_writeRows more fun x hx => h x (List.mem_cons_of_mem _ hx)]
    rfl

theorem create_headerLine (text : Str) : '\n' ∉ (CSVReader.create text).headerLine := by
  unfold CSVReader.create IStream.ofText
  by_cases hr : text = []
  · subst hr
    simp [getline_nil]
  · cases ht : takeLine '\n' text with
    | mk l o =>
      cases o with
      | some r' =>
        rw [getline_some ⟨text, text, false, false⟩ [] '\n' l r' rfl rfl ht]
        exact (takeLine_some '\n' _ _ _ ht).2.1
      | none =>
        rw [getline_none ⟨text, text, false, false⟩ [] '\n' l rfl rfl hr ht]
        exact (takeLine_none '\n' _ _ ht).2.1

/-- The header names of a file hold no comma and no newline. -/
theorem analyzerOf_headers (text : Str) :
    ∀ f ∈ (analyzerOf text).headers, ',' ∉ f ∧ '\n' ∉ f :=
  (readCells_fields _ (create_headerLine text)).2

/-- Scanning an exported file gives back the exported rows when the header
names and the fields hold no comma and no newline, every row has a field, and
no row ends in an empty field. -/
theorem dataRows_export (a : CSVAnalyzer) (rows : List CSVRow)
    (hh : ∀ f ∈ a.headers, '\n' ∉ f)
    (hrows : ∀ row ∈ rows, row.data ≠ [] ∧ (∀ f ∈ row.data, ',' ∉ f ∧ '\n' ∉ f) ∧
      row.data.getLast? ≠ some []) :
    dataRows (a.exportToCSV rows) = rows := by
  unfold dataRows CSVAnalyzer.exportToCSV
  rw [pieces_append_delim '\n' _ _ (writeFields_no_newline _ hh),
    pieces_writeRows rows fun row hrow =>
      writeFields_no_newline _ fun f hf => ((hrows row hrow).2.1 f hf).2]
  simp only [List.tail_cons]
  rw [rowsOfLines_of_nonempty]
  · rw [List.map_map]
    conv => rhs; rw [← List.map_id rows]
    refine List.map_congr_left fun row hrow => ?_
    obtain ⟨h1, h2, h3⟩ := hrows row hrow
    simp only [Function.comp, id]
    rw [readCells_eq, pieces_writeFields row.data h1 (fun f hf => (h2 f hf).1) h3]
  · intro l hl
    obtain ⟨row, hrow, rfl⟩ := List.mem_map.mp hl
    obtain ⟨h1, h2, h3⟩ := hrows row hrow
    intro h0
    have := pieces_writeFields row.data h1 (fun f hf => (h2 f hf).1) h3
    rw [h0] at this
    exact h1 this.symm

/-! ## C6: export and re-scan -/

/-- C6, as stated, fails on a row that ends in an empty field: the file
`x / 1,,` sorts to the single row with fields `1` and the empty text, which is
exported as the line `1,` and read back as the row with the one field `1`. -/
theorem export_rescan_trailing_empty_field :
    ((analyzerOf "x\n1,,\n".toList).sortByColumn exactOps "x".toList false).1 =
      .ok [{ data := ["1".toList, []] }] ∧
    (analyzerOf "x\n1,,\n".toList).exportToCSV [{ data := ["1".toList, []] }] =
      "x\n1,\n".toList ∧
    scanRows ((analyzerOf "x\n1,,\n".toList).exportToCSV [{ data := ["1".toList, []] }]) =
      [{ data := ["1".toList] }] ∧
    scanRows ((analyzerOf "x\n1,,\n".toList).exportToCSV [{ data := ["1".toList, []] }]) ≠
      [{ data := ["1".toList, []] }] := by
  refine ⟨by decide, by decide, by decide, by decide⟩

/-- C6, amended: when `sortByColumn` returns and no row of the sorted sequence
ends in an empty field, exporting the sequence and scanning the written file
from the start yields the sorted sequence exactly. -/
theorem export_rescan_roundtrip {V : Type} [LinearOrder V] (ops : DoubleOps V) (text : Str)
    (columnName : Str) (descending : Bool) (sorted : List CSVRow)
    (hsort : ((analyzerOf text).sortByColumn ops columnName descending).1 = .ok sorted)
    (hlast : ∀ row ∈ sorted, row.data.getLast? ≠ some []) :
    scanRows ((analyzerOf text).exportToCSV sorted) = sorted := by
  have hperm := sortByColumn_perm ops (analyzerOf text) columnName descending sorted hsort
  rw [analyzerOf_content] at hperm
  rw [scanRows_eq]
  refine dataRows_export _ sorted (fun f hf => (analyzerOf_headers text f hf).2) fun row hrow => ?_
  obtain ⟨h1, h2⟩ := dataRows_fields text row (hperm.mem_iff.mp hrow)
  exact ⟨h1, h2, hlast row hrow⟩

/-- C6, amended, at the file `name,score / a,10 / b,20 / a,30` sorted by `score`
descending: the export is re-scanned to the three sorted rows. -/
theorem export_rescan_roundtrip_witness :
    ((analyzerOf "name,score\na,10\nb,20\na,30\n".toList).sortByColumn exactOps
        "score".toList true).1 =
      .ok [{ data := ["a".toList, "30".toList] }, { data := ["b".toList, "20".toList] },
        { data := ["a".toList, "10".toList] }] ∧
    scanRows ((analyzerOf "name,score\na,10\nb,20\na,30\n".toList).exportToCSV
        [{ data := ["a".toList, "30".toList] }, { data := ["b".toList, "20".toList] },
          { data := ["a".toList, "10".toList] }]) =
      [{ data := ["a".toList, "30".toList] }, { data := ["b".toList, "20".toList] },
        { data := ["a".toList, "10".toList] }] :=
  ⟨by decide!,
    export_rescan_roundtrip exactOps "name,score\na,10\nb,20\na,30\n".toList "score".toList true
      _ (by decide!) (by decide)⟩

theorem reset_content (r : CSVReader) : r.reset.file.content = r.file.content := by
  rw [reset_eq]
  exact create_content _

theorem readAllLoop_content : ∀ (fuel : Nat) (r : CSVReader) (row : CSVRow)
    (allRows : List CSVRow), (readAllLoop fuel r row allRows).2.file.content = r.file.content
  | 0, _, _, _ => rfl
  | fuel + 1, r, row, allRows => by
    obtain ⟨-, -, hc, -⟩ := readRow_spec r row
    rw [readAllLoop]
    rcases hrr : r.readRow row with ⟨r', row', b⟩
    rw [hrr] at hc
    cases b with
    | false => exact hc
    | true =>
      simp only
      rw [readAllLoop_content fuel r' row' _]
      exact hc

theorem afterReads_content : ∀ (k : Nat) (r : CSVReader) (row : CSVRow),
    (afterReads k r row).file.content = r.file.content
  | 0, _, _ => rfl
  | k + 1, r, row => by
    rw [afterReads, afterReads_content k]
    exact (readRow_spec r row).2.2.1

theorem afterRounds_content : ∀ (n : Nat) (r : CSVReader),
    (afterRounds n r).file.content = r.file.content
  | 0, _ => rfl
  | n + 1, r => by
    rw [afterRounds, afterRounds_content n, readAllLoop_content, reset_content]

theorem scanAll_eq (r : CSVReader) : scanAll r = rowsFrom r.file := by
  unfold scanAll
  rw [readAllLoop_fst _ _ _ _ (Nat.lt_succ_self _)]
  simp

theorem scanAll_reset (r : CSVReader) : scanAll r.reset = dataRows r.file.content := by
  rw [scanAll_eq, rowsFrom_reset]

theorem scanAll_create (text : Str) : scanAll (CSVReader.create text) = dataRows text := by
  rw [scanAll_eq, rowsFrom_create]

/-! ## C7: `reset` and rescans -/

/-- C7: whatever state a reader is in, `reset` followed by reading rows to the
end yields the row sequence of the first scan after the file was opened, which
starts with the first data row; in particular this holds after any number of
rows read from the opened file, and after any number of reset-and-scan rounds. -/
theorem reset_then_scan_reproduces_first_scan :
    (∀ r : CSVReader, scanAll r.reset = scanAll (CSVReader.create r.file.content)) ∧
    (∀ (text : Str) (k : Nat) (row : CSVRow),
      scanAll (afterReads k (CSVReader.create text) row).reset =
        scanAll (CSVReader.create text)) ∧
    (∀ (text : Str) (n : Nat),
      scanAll (afterRounds n (CSVReader.create text)).reset = scanAll (CSVReader.create text)) ∧
    (∀ text : Str, scanAll (CSVReader.create text) = dataRows text) := by
  refine ⟨fun r => ?_, fun text k row => ?_, fun text n => ?_, scanAll_create⟩
  · rw [scanAll_reset, scanAll_create]
  · rw [scanAll_reset, scanAll_create, afterReads_content, create_content]
  · rw [scanAll_reset, scanAll_create, afterRounds_content, create_content]

/-- On the file `name,score / a,10 / b,20 / a,30`: after two rows are read, and
after the file is read to its end, a reset and a scan give the rows of the
first scan. -/
theorem reset_then_scan_examples :
    scanAll (afterReads 2 (CSVReader.create "name,score\na,10\nb,20\na,30\n".toList)
      { data := [] }).reset =
      [{ data := ["a".toList, "10".toList] }, { data := ["b".toList, "20".toList] },
        { data := ["a".toList, "30".toList] }] ∧
    scanAll (afterReads 4 (CSVReader.create "name,score\na,10\nb,20\na,30\n".toList)
      { data := [] }) = [] ∧
    scanAll (afterReads 4 (CSVReader.create "name,score\na,10\nb,20\na,30\n".toList)
      { data := [] }).reset = scanAll (CSVReader.create "name,score\na,10\nb,20\na,30\n".toList) := by
  decide

/-- Two permutations of the same rows, both ordered downwards by a key that
takes no value twice on them, are equal. -/
theorem eq_of_perm_of_descending {W : Type} [LinearOrder W] (k : CSVRow → W)
    (l₁ l₂ rows : List CSVRow) (hp₁ : l₁.Perm rows) (hp₂ : l₂.Perm rows)
    (hs₁ : l₁.Pairwise fun x y => k x ≥ k y) (hs₂ : l₂.Pairwise fun x y => k x ≥ k y)
    (hd : (rows.map k).Nodup) : l₁ = l₂ := by
  have strict : ∀ l : List CSVRow, l.Perm rows → (l.Pairwise fun x y => k x ≥ k y) →
      l.Pairwise fun x y => k y < k x := by
    intro l hp hs
    have hnd : (l.map k).Nodup := (hp.map k).nodup_iff.mpr hd
    have hne : l.Pairwise fun x y => k x ≠ k y := List.pairwise_map.mp hnd
    exact (hs.and hne).imp fun h => lt_of_le_of_ne h.1 (Ne.symm h.2)
  haveI : IsAntisymm CSVRow (fun x y => k y < k x) :=
    ⟨fun _ _ h1 h2 => absurd h1 (lt_asymm h2)⟩
  exact List.eq_of_perm_of_sorted (hp₁.trans hp₂.symm) (strict l₁ hp₁ hs₁) (strict l₂ hp₂ hs₂)

/-! ## C8: the two directions of `sortByColumn` -/

/-- C8: on a file whose values in the sort column all convert and are pairwise
distinct, the sequence `sortByColumn` returns with `descending` true is exactly
the reverse of the one it returns with `descending` false. -/
theorem sortByColumn_descending_is_reverse {V : Type} [LinearOrder V] (ops : DoubleOps V)
    (text : Str) (columnName : Str) (colIdx : Nat)
    (hcol : (analyzerOf text).getColumnIndex columnName = .ok colIdx)
    (hnum : ∀ row ∈ dataRows text, ∃ v, parseField ops row colIdx = .ok v)
    (hdistinct : ((dataRows text).map (numberAt ops colIdx)).Nodup) :
    ∃ ascending descending,
      ((analyzerOf text).sortByColumn ops columnName false).1 = .ok ascending ∧
      ((analyzerOf text).sortByColumn ops columnName true).1 = .ok descending ∧
      descending = ascending.reverse := by
  have hnum' : ∀ row ∈ dataRows (analyzerOf text).reader.file.content,
      ∃ v, parseField ops row colIdx = .ok v := by
    rw [analyzerOf_content]; exact hnum
  obtain ⟨asc, ha, hpa, hsa, -⟩ := sortByColumn_fst_spec ops (analyzerOf text) columnName colIdx
    false hcol hnum'
  obtain ⟨desc, hd, hpd, -, hsd⟩ := sortByColumn_fst_spec ops (analyzerOf text) columnName colIdx
    true hcol hnum'
  rw [analyzerOf_content] at hpa hpd
  refine ⟨asc, desc, ha, hd, ?_⟩
  exact eq_of_perm_of_descending (numberAt ops colIdx) desc asc.reverse (dataRows text) hpd
    ((List.reverse_perm asc).trans hpa) (hsd rfl) (List.pairwise_reverse.mpr (hsa rfl)) hdistinct

/-- C8 at the file `name,score / a,10 / b,20 / a,30`, whose scores are pairwise
distinct. -/
theorem sortByColumn_descending_is_reverse_witness :
    ((dataRows "name,score\na,10\nb,20\na,30\n".toList).map (numberAt exactOps 1)).Nodup ∧
    ∃ ascending descending,
      ((analyzerOf "name,score\na,10\nb,20\na,30\n".toList).sortByColumn exactOps
        "score".toList false).1 = .ok ascending ∧
      ((analyzerOf "name,score\na,10\nb,20\na,30\n".toList).sortByColumn exactOps
        "score".toList true).1 = .ok descending ∧
      descending = ascending.reverse :=
  ⟨by decide!,
    sortByColumn_descending_is_reverse exactOps "name,score\na,10\nb,20\na,30\n".toList
      "score".toList 1 (by decide) sample_numbers (by decide!)⟩

/-! ## C9: a single group key -/

/-- C9: on a file with at least one data row in which every scanned row has the
same text in the group column and every value converts, `groupByAndAverage`
prints a single entry, keyed by that text, whose value is the sum of the values
of all scanned rows divided by their count. -/
theorem groupByAndAverage_single_key {V : Type} (ops : DoubleOps V) (text : Str)
    (groupCol valueCol : Str) (groupIdx valueIdx : Nat) (key : Str)
    (hgroup : (analyzerOf text).getColumnIndex groupCol = .ok groupIdx)
    (hvalue : (analyzerOf text).getColumnIndex valueCol = .ok valueIdx)
    (hrows : dataRows text ≠ [])
    (hkey : ∀ row ∈ dataRows text, row.get groupIdx = .ok key)
    (hnum : ∀ row ∈ dataRows text, ∃ v, parseField ops row valueIdx = .ok v) :
    ((analyzerOf text).groupByAndAverage ops groupCol valueCol).1 =
      .ok [(key, ops.divSize
        (((dataRows text).map (numberAt ops valueIdx)).foldl ops.add ops.zero)
        (dataRows text).length)] := by
  obtain ⟨out, ho, hs, hk, ha⟩ := groupByAndAverage_fst_spec ops (analyzerOf text) groupCol
    valueCol groupIdx valueIdx hgroup hvalue
    (by rw [analyzerOf_content]; exact fun row hrow => ⟨⟨key, hkey row hrow⟩, hnum row hrow⟩)
  rw [analyzerOf_content] at hk ha
  have hfield : ∀ row ∈ dataRows text, fieldAt groupIdx row = key := fun row hrow =>
    (fieldAt_eq_iff groupIdx row key ⟨key, hkey row hrow⟩).mpr (hkey row hrow)
  have hall : ∀ e ∈ out, e.1 = key := by
    intro e he
    obtain ⟨row, hrow, hr⟩ := (hk e.1).mp (List.mem_map_of_mem _ he)
    rw [← hr, hfield row hrow]
  have hfilter : ((dataRows text).filter fun row => decide (fieldAt groupIdx row = key)) =
      dataRows text :=
    List.filter_eq_self.mpr fun row hrow => decide_eq_true (hfield row hrow)
  rw [ho]
  cases hd : dataRows text with
  | nil => exact absurd hd hrows
  | cons row0 more =>
    have hin : key ∈ out.map Prod.fst := (hk key).mpr ⟨row0, by rw [hd]; simp, hfield row0 (by rw [hd]; simp)⟩
    rw [← hd]
    cases out with
    | nil => simp at hin
    | cons e rest =>
      cases rest with
      | cons f rest' =>
        have h1 := List.rel_of_pairwise_cons hs (List.mem_cons_self f rest')
        rw [hall e (by simp), hall f (by simp), strLt_irrefl] at h1
        exact absurd h1 Bool.false_ne_true
      | nil =>
        obtain ⟨k, avg⟩ := e
        have hk1 : k = key := hall (k, avg) (by simp)
        subst hk1
        rw [ha k avg (by simp), hfilter]
        simp [average]

/-- C9 at the file `name,score / a,10 / a,20 / a,30`: the single entry `a: 20`,
the mean of the whole column. -/
theorem groupByAndAverage_single_key_witness :
    ((analyzerOf "name,score\na,10\na,20\na,30\n".toList).groupByAndAverage exactOps
        "name".toList "score".toList).1 =
      .ok [("a".toList, exactOps.divSize
        (((dataRows "name,score\na,10\na,20\na,30\n".toList).map (numberAt exactOps 1)).foldl
          exactOps.add exactOps.zero)
        (dataRows "name,score\na,10\na,20\na,30\n".toList).length)] ∧
    exactOps.divSize
        (((dataRows "name,score\na,10\na,20\na,30\n".toList).map (numberAt exactOps 1)).foldl
          exactOps.add exactOps.zero)
        (dataRows "name,score\na,10\na,20\na,30\n".toList).length = 20 := by
  have hrows : dataRows "name,score\na,10\na,20\na,30\n".toList =
      [{ data := ["a".toList, "10".toList] }, { data := ["a".toList, "20".toList] },
        { data := ["a".toList, "30".toList] }] := by decide
  refine ⟨groupByAndAverage_single_key exactOps "name,score\na,10\na,20\na,30\n".toList
    "name".toList "score".toList 0 1 "a".toList (by decide) (by decide) (by decide) (by decide)
    ?_, by decide!⟩
  rw [hrows]
  intro row hrow
  simp only [List.mem_cons, List.mem_singleton, List.not_mem_nil, or_false] at hrow
  rcases hrow with rfl | rfl | rfl
  · exact ⟨10, by decide!⟩
  · exact ⟨20, by decide!⟩
  · exact ⟨30, by decide!⟩

theorem sortComparator_error_left {V : Type} [LinearOrder V] (ops : DoubleOps V) (c : Nat)
    (descending : Bool) (a b : CSVRow) (e : Err) (ha : parseField ops a c = .error e) :
    sortComparator ops c descending a b = .error e := by
  unfold sortComparator
  rw [ha]

theorem sortComparator_error_right {V : Type} [LinearOrder V] (ops : DoubleOps V) (c : Nat)
    (descending : Bool) (a b : CSVRow) (e : Err) (ha : ∃ v, parseField ops a c = .ok v)
    (hb : parseField ops b c = .error e) :
    sortComparator ops c descending a b = .error e := by
  obtain ⟨v, hv⟩ := ha
  unfold sortComparator
  rw [hv, hb]

theorem unguardedLinearInsert_ok {α : Type} (comp : α → α → Except Err Bool) (val : α) :
    ∀ (range : List α), (∀ b ∈ range, ∃ r, comp val b = .ok r) →
    (∃ e ∈ range, comp val e = .ok false) →
    ∃ out, unguardedLinearInsert comp val range = .ok out
  | [], _, hg => by
    obtain ⟨e, he, -⟩ := hg
    simp at he
  | next :: before, hc, hg => by
    obtain ⟨r, hr⟩ := hc next (by simp)
    rw [unguardedLinearInsert, hr]
    cases r with
    | false => exact ⟨_, rfl⟩
    | true =>
      have hg' : ∃ e ∈ before, comp val e = .ok false := by
        obtain ⟨e, he, hf⟩ := hg
        rcases List.mem_cons.mp he with rfl | he
        · rw [hr] at hf; cases hf
        · exact ⟨e, he, hf⟩
      obtain ⟨moved, hm⟩ := unguardedLinearInsert_ok comp val before
        (fun b hb => hc b (List.mem_cons_of_mem _ hb)) hg'
      simp only
      rw [hm]
      exact ⟨_, rfl⟩

/-- Once the range before the current element holds only rows whose value
converts, a later row whose text does not convert makes the sort throw. -/
theorem insertionSortLoop_throws {V : Type} [LinearOrder V] (ops : DoubleOps V) (c : Nat)
    (descending : Bool) :
    ∀ (todo sorted : List CSVRow), sorted ≠ [] →
    (∀ s ∈ sorted, ∃ v, parseField ops s c = .ok v) →
    (∀ t ∈ todo, (∃ v, parseField ops t c = .ok v) ∨ parseField ops t c = .error .numericParse) →
    (∃ t ∈ todo, parseField ops t c = .error .numericParse) →
    insertionSortLoop (sortComparator ops c descending) sorted todo = .error .numericParse
  | [], _, _, _, _, hb => by
    obtain ⟨t, ht, -⟩ := hb
    simp at ht
  | _ :: _, [], hne, _, _, _ => absurd rfl hne
  | x :: todo, first :: others, _, hs, ht, hb => by
    rw [insertionSortLoop]
    rcases ht x (by simp) with hx | hx
    · have hb' : ∃ t ∈ todo, parseField ops t c = .error .numericParse := by
        obtain ⟨t, hmem, hbad⟩ := hb
        rcases List.mem_cons.mp hmem with rfl | hmem
        · obtain ⟨v, hv⟩ := hx
          rw [hv] at hbad
          cases hbad
        · exact ⟨t, hmem, hbad⟩
      have ht' : ∀ t ∈ todo, (∃ v, parseField ops t c = .ok v) ∨
          parseField ops t c = .error .numericParse :=
        fun t hmem => ht t (List.mem_cons_of_mem _ hmem)
      have hcomp : ∀ b ∈ first :: others, ∃ r, sortComparator ops c descending x b = .ok r :=
        fun b hmem => ⟨_, sortComparator_eq ops c descending x b hx (hs b hmem)⟩
      obtain ⟨r, hr⟩ := hcomp first (by simp)
      rw [hr]
      cases r with
      | true =>
        refine insertionSortLoop_throws ops c descending todo _ (by simp) (fun s hmem => ?_) ht' hb'
        rcases List.mem_cons.mp hmem with rfl | hmem
        · exact hx
        · exact hs s hmem
      | false =>
        obtain ⟨placed, hp⟩ := unguardedLinearInsert_ok (sortComparator ops c descending) x
          (first :: others).reverse (fun b hmem => hcomp b (List.mem_reverse.mp hmem))
          ⟨first, by simp, hr⟩
        simp only
        rw [hp]
        have hperm := unguardedLinearInsert_perm _ x _ placed hp
        refine insertionSortLoop_throws ops c descending todo _ ?_ (fun s hmem => ?_) ht' hb'
        · intro h0
          have := hperm.length_eq
          rw [List.reverse_eq_nil_iff.mp h0] at this
          simp at this
        · rcases List.mem_cons.mp (hperm.mem_iff.mp (List.mem_reverse.mp hmem)) with rfl | h1
          · exact hx
          · exact hs s (List.mem_reverse.mp h1)
    · rw [sortComparator_error_left ops c descending x first _ hx]

/-- With two rows or more, each with the sort column, `sortByColumn` throws as
soon as the text of one row does not convert. -/
theorem sortByColumn_throws_of_two_rows {V : Type} [LinearOrder V] (ops : DoubleOps V)
    (text : Str) (columnName : Str) (colIdx : Nat) (descending : Bool)
    (hcol : (analyzerOf text).getColumnIndex columnName = .ok colIdx)
    (htwo : 2 ≤ (dataRows text).length)
    (hfield : ∀ row ∈ dataRows text, ∃ field, row.get colIdx = .ok field)
    (hbad : ∃ row ∈ dataRows text, ∃ field, row.get colIdx = .ok field ∧ ops.stod field = none) :
    ((analyzerOf text).sortByColumn ops columnName descending).1 = .error .numericParse := by
  have hcases : ∀ row ∈ dataRows text, (∃ v, parseField ops row colIdx = .ok v) ∨
      parseField ops row colIdx = .error .numericParse := by
    intro row hrow
    obtain ⟨field, hf⟩ := hfield row hrow
    unfold parseField
    rw [hf]
    cases hs : ops.stod field with
    | none => exact Or.inr (by simp [hs])
    | some v => exact Or.inl ⟨v, by simp [hs]⟩
  have hbad' : ∃ row ∈ dataRows text, parseField ops row colIdx = .error .numericParse := by
    obtain ⟨row, hrow, field, hf, hs⟩ := hbad
    refine ⟨row, hrow, ?_⟩
    unfold parseField
    rw [hf]
    simp only
    rw [hs]
  unfold CSVAnalyzer.sortByColumn
  rw [hcol]
  simp only
  rw [readAll_reset, analyzerOf_content]
  cases hd : dataRows text with
  | nil => rw [hd] at htwo; simp at htwo
  | cons first rest =>
    cases rest with
    | nil => rw [hd] at htwo; simp at htwo
    | cons x todo =>
      rw [hd] at hcases hbad'
      rw [stdSort]
      rcases hcases first (by simp) with hfirst | hfirst
      · refine insertionSortLoop_throws ops colIdx descending (x :: todo) [first] (by simp)
          (fun s hmem => by rw [List.mem_singleton.mp hmem]; exact hfirst)
          (fun t hmem => hcases t (List.mem_cons_of_mem _ hmem)) ?_
        obtain ⟨row, hrow, hb⟩ := hbad'
        rcases List.mem_cons.mp hrow with rfl | hrow
        · obtain ⟨v, hv⟩ := hfirst
          rw [hv] at hb
          cases hb
        · exact ⟨row, hrow, hb⟩
      · rw [insertionSortLoop]
        rcases hcases x (by simp) with hx | hx
        · rw [sortComparator_error_right ops colIdx descending x first _ hx hfirst]
        · rw [sortComparator_error_left ops colIdx descending x first _ hx]

/-! ## C10: `sortByColumn` and a text that is not a number -/

/-- C10 fails on a file with exactly one data row: in the file `x / abc` the
text `abc` of the sort column does not convert, yet `sortByColumn` returns the
row in both directions, since the comparator, the only place where the text is
converted, is never called on a range of one element; `getMaxMin` on the same
file throws. -/
theorem sortByColumn_single_row_not_parsed :
    dataRows "x\nabc\n".toList = [{ data := ["abc".toList] }] ∧
    parseField exactOps { data := ["abc".toList] } 0 = .error .numericParse ∧
    ((analyzerOf "x\nabc\n".toList).sortByColumn exactOps "x".toList false).1 =
      .ok [{ data := ["abc".toList] }] ∧
    ((analyzerOf "x\nabc\n".toList).sortByColumn exactOps "x".toList true).1 =
      .ok [{ data := ["abc".toList] }] ∧
    ((analyzerOf "x\nabc\n".toList).getMaxMin exactOps "x".toList 0 0).1 =
      .error .numericParse := by
  refine ⟨by decide, by decide, by decide, by decide, by decide⟩

/-- With a second row the same text makes the sort throw: the file
`x / abc / 1`. -/
theorem sortByColumn_throws_example :
    ((analyzerOf "x\nabc\n1\n".toList).sortByColumn exactOps "x".toList false).1 =
      .error .numericParse :=
  sortByColumn_throws_of_two_rows exactOps "x\nabc\n1\n".toList "x".toList 0 false (by decide)
    (by decide)
    (by
      have h : dataRows "x\nabc\n1\n".toList =
          [{ data := ["abc".toList] }, { data := ["1".toList] }] := by decide
      rw [h]
      intro row hrow
      simp only [List.mem_cons, List.mem_singleton, List.not_mem_nil, or_false] at hrow
      rcases hrow with rfl | rfl
      · exact ⟨_, rfl⟩
      · exact ⟨_, rfl⟩)
    ⟨{ data := ["abc".toList] }, by decide, "abc".toList, by decide, by decide⟩

theorem groupLoop_eq {V : Type} (ops : DoubleOps V) (gi vi : Nat) :
    ∀ (fuel : Nat) (r : CSVReader) (row : CSVRow) (g : Groups V),
    r.file.rest.length < fuel →
    (groupLoop ops gi vi fuel r row g).1 = groupRows ops gi vi (rowsFrom r.file) g
  | 0, _, _, _, h => by simp at h
  | fuel + 1, r, row, g, h => by
    obtain ⟨ht, hf, -⟩ := readRow_spec r row
    rw [groupLoop]
    rcases hrr : r.readRow row with ⟨r', row', b⟩
    rw [hrr] at ht hf
    cases b with
    | false => simp [hf rfl, groupRows]
    | true =>
      obtain ⟨h1, h2⟩ := ht rfl
      simp only at h1 h2 ⊢
      rw [h1, groupRows]
      cases hk : row'.get gi with
      | error e => rfl
      | ok key =>
        simp only
        cases hv : parseField ops row' vi with
        | error e => rfl
        | ok val =>
          simp only
          exact groupLoop_eq ops gi vi fuel r' row' _ (by omega)

theorem maxMinLoop_eq {V : Type} [LinearOrder V] (ops : DoubleOps V) (c : Nat) :
    ∀ (fuel : Nat) (r : CSVReader) (row : CSVRow) (first : Bool) (mx mn : V),
    r.file.rest.length < fuel →
    (maxMinLoop ops c fuel r row first mx mn).1 =
      maxMinRows ops c (rowsFrom r.file) first mx mn
  | 0, _, _, _, _, _, h => by simp at h
  | fuel + 1, r, row, first, mx, mn, h => by
    obtain ⟨ht, hf, -⟩ := readRow_spec r row
    rw [maxMinLoop]
    rcases hrr : r.readRow row with ⟨r', row', b⟩
    rw [hrr] at ht hf
    cases b with
    | false => simp [hf rfl, maxMinRows]
    | true =>
      obtain ⟨h1, h2⟩ := ht rfl
      simp only at h1 h2 ⊢
      rw [h1, maxMinRows]
      cases hv : parseField ops row' c with
      | error e => rfl
      | ok val =>
        simp only
        cases first with
        | true =>
          simp only [if_true]
          exact maxMinLoop_eq ops c fuel r' row' false _ _ (by omega)
        | false =>
          simp only [Bool.false_eq_true, if_false]
          exact maxMinLoop_eq ops c fuel r' row' false _ _ (by omega)

/-- What each scan loop leaves of the reader: the content of the file and the
header names. -/
theorem filterLoop_reader (p : CSVRow → Bool) : ∀ (fuel : Nat) (r : CSVReader)
    (row : CSVRow) (result : List CSVRow),
    (filterLoop p fuel r row result).2.file.content = r.file.content ∧
    (filterLoop p fuel r row result).2.headers = r.headers
  | 0, _, _, _ => ⟨rfl, rfl⟩
  | fuel + 1, r, row, result => by
    obtain ⟨-, -, hc, hh, -⟩ := readRow_spec r row
    rw [filterLoop]
    rcases hrr : r.readRow row with ⟨r', row', b⟩
    rw [hrr] at hc hh
    cases b with
    | false => exact ⟨hc, hh⟩
    | true =>
      simp only
      obtain ⟨i1, i2⟩ := filterLoop_reader p fuel r' row'
        (if p row' = true then result ++ [row'] else result)
      exact ⟨i1.trans hc, i2.trans hh⟩

theorem groupLoop_reader {V : Type} (ops : DoubleOps V) (gi vi : Nat) :
    ∀ (fuel : Nat) (r : CSVReader) (row : CSVRow) (g : Groups V),
    (groupLoop ops gi vi fuel r row g).2.file.content = r.file.content ∧
    (groupLoop ops gi vi fuel r row g).2.headers = r.headers
  | 0, _, _, _ => ⟨rfl, rfl⟩
  | fuel + 1, r, row, g => by
    obtain ⟨-, -, hc, hh, -⟩ := readRow_spec r row
    rw [groupLoop]
    rcases hrr : r.readRow row with ⟨r', row', b⟩
    rw [hrr] at hc hh
    cases b with
    | false => exact ⟨hc, hh⟩
    | true =>
      simp only
      cases hk : row'.get gi with
      | error e => exact ⟨hc, hh⟩
      | ok key =>
        simp only
        cases hv : parseField ops row' vi with
        | error e => exact ⟨hc, hh⟩
        | ok val =>
          simp only
          obtain ⟨i1, i2⟩ := groupLoop_reader ops gi vi fuel r' row' (groupsPush key val g)
          exact ⟨i1.trans hc, i2.trans hh⟩

theorem maxMinLoop_reader {V : Type} [LinearOrder V] (ops : DoubleOps V) (c : Nat) :
    ∀ (fuel : Nat) (r : CSVReader) (row : CSVRow) (first : Bool) (mx mn : V),
    (maxMinLoop ops c fuel r row first mx mn).2.file.content = r.file.content ∧
    (maxMinLoop ops c fuel r row first mx mn).2.headers = r.headers
  | 0, _, _, _, _, _ => ⟨rfl, rfl⟩
  | fuel + 1, r, row, first, mx, mn => by
    obtain ⟨-, -, hc, hh, -⟩ := readRow_spec r row
    rw [maxMinLoop]
    rcases hrr : r.readRow row with ⟨r', row', b⟩
    rw [hrr] at hc hh
    cases b with
    | false => exact ⟨hc, hh⟩
    | true =>
      simp only
      cases hv : parseField ops row' c with
      | error e => exact ⟨hc, hh⟩
      | ok val =>
        simp only
        cases first with
        | true =>
          simp only [if_true]
          obtain ⟨i1, i2⟩ := maxMinLoop_reader ops c fuel r' row' false val val
          exact ⟨i1.trans hc, i2.trans hh⟩
        | false =>
          simp only [Bool.false_eq_true, if_false]
          obtain ⟨i1, i2⟩ := maxMinLoop_reader ops c fuel r' row' false
            (if val > mx then val else mx) (if val < mn then val else mn)
          exact ⟨i1.trans hc, i2.trans hh⟩

theorem readAllLoop_headers : ∀ (fuel : Nat) (r : CSVReader) (row : CSVRow)
    (allRows : List CSVRow), (readAllLoop fuel r row allRows).2.headers = r.headers
  | 0, _, _, _ => rfl
  | fuel + 1, r, row, allRows => by
    obtain ⟨-, -, -, hh, -⟩ := readRow_spec r row
    rw [readAllLoop]
    rcases hrr : r.readRow row with ⟨r', row', b⟩
    rw [hrr] at hh
    cases b with
    | false => exact hh
    | true =>
      simp only
      rw [readAllLoop_headers fuel r' row' _]
      exact hh

theorem reset_headers (r : CSVReader) : r.reset.headers = r.headers := rfl

/-- The result of `sortByColumn`: the failure of the column resolution, or the
sort of the rows of the file. -/
theorem sortByColumn_fst_eq {V : Type} [LinearOrder V] (ops : DoubleOps V) (a : CSVAnalyzer)
    (columnName : Str) (descending : Bool) :
    (a.sortByColumn ops columnName descending).1 =
      match a.getColumnIndex columnName with
      | .error e => .error e
      | .ok colIdx =>
        stdSort (sortComparator ops colIdx descending) (dataRows a.reader.file.content) := by
  unfold CSVAnalyzer.sortByColumn
  cases a.getColumnIndex columnName with
  | error e => rfl
  | ok colIdx =>
    simp only
    rw [readAll_reset]

/-- The result of `getMaxMin`: the failure of the column resolution, or the
scan of the rows of the file. -/
theorem getMaxMin_fst_rows {V : Type} [LinearOrder V] (ops : DoubleOps V) (a : CSVAnalyzer)
    (columnName : Str) (max0 min0 : V) :
    (a.getMaxMin ops columnName max0 min0).1 =
      match a.getColumnIndex columnName with
      | .error e => .error e
      | .ok colIdx => maxMinRows ops colIdx (dataRows a.reader.file.content) true max0 min0 := by
  unfold CSVAnalyzer.getMaxMin
  cases a.getColumnIndex columnName with
  | error e => rfl
  | ok colIdx =>
    simp only
    rw [maxMinLoop_eq ops colIdx _ _ _ _ _ _ (Nat.lt_succ_self _), rowsFrom_reset]

/-- The result of `groupByAndAverage`: the failure of a column resolution, or
the failure of the scan of the rows of the file, or the averages of the groups
the scan builds. -/
theorem groupByAndAverage_fst_rows {V : Type} (ops : DoubleOps V) (a : CSVAnalyzer)
    (groupCol valueCol : Str) :
    (a.groupByAndAverage ops groupCol valueCol).1 =
      match a.getColumnIndex groupCol with
      | .error e => .error e
      | .ok groupIdx =>
        match a.getColumnIndex valueCol with
        | .error e => .error e
        | .ok valueIdx =>
          match groupRows ops groupIdx valueIdx (dataRows a.reader.file.content) [] with
          | .error e => .error e
          | .ok groups => .ok (groups.map fun entry => (entry.1, average ops entry.2)) := by
  unfold CSVAnalyzer.groupByAndAverage
  cases a.getColumnIndex groupCol with
  | error e => rfl
  | ok groupIdx =>
    simp only
    cases a.getColumnIndex valueCol with
    | error e => rfl
    | ok valueIdx =>
      simp only
      have h := groupLoop_eq ops groupIdx valueIdx (a.reader.reset.file.rest.length + 1)
        a.reader.reset { data := [] } [] (Nat.lt_succ_self _)
      rw [rowsFrom_reset] at h
      rcases hgl : groupLoop ops groupIdx valueIdx (a.reader.reset.file.rest.length + 1)
        a.reader.reset { data := [] } [] with ⟨res, r'⟩
      rw [hgl] at h
      simp only at h
      rw [← h]
      cases res with
      | error e => rfl
      | ok groups => rfl

/-- Every operation leaves the analyzer on the same source. -/
theorem filter_sameSource (a : CSVAnalyzer) (p : CSVRow → Bool) :
    sameSource (a.filter p).2 a := by
  unfold CSVAnalyzer.filter sameSource
  refine ⟨rfl, ?_⟩
  simp only
  rw [(filterLoop_reader p _ _ _ _).1, reset_content]

theorem sortByColumn_sameSource {V : Type} [LinearOrder V] (ops : DoubleOps V)
    (a : CSVAnalyzer) (columnName : Str) (descending : Bool) :
    sameSource (a.sortByColumn ops columnName descending).2 a := by
  unfold CSVAnalyzer.sortByColumn sameSource
  cases a.getColumnIndex columnName with
  | error e => exact ⟨rfl, rfl⟩
  | ok colIdx =>
    refine ⟨rfl, ?_⟩
    simp only
    rw [readAllLoop_content, reset_content]

theorem getMaxMin_sameSource {V : Type} [LinearOrder V] (ops : DoubleOps V)
    (a : CSVAnalyzer) (columnName : Str) (max0 min0 : V) :
    sameSource (a.getMaxMin ops columnName max0 min0).2 a := by
  unfold CSVAnalyzer.getMaxMin sameSource
  cases a.getColumnIndex columnName with
  | error e => exact ⟨rfl, rfl⟩
  | ok colIdx =>
    refine ⟨rfl, ?_⟩
    simp only
    rw [(maxMinLoop_reader ops colIdx _ _ _ _ _ _).1, reset_content]

theorem groupByAndAverage_sameSource {V : Type} (ops : DoubleOps V)
    (a : CSVAnalyzer) (groupCol valueCol : Str) :
    sameSource (a.groupByAndAverage ops groupCol valueCol).2 a := by
  unfold CSVAnalyzer.groupByAndAverage sameSource
  cases a.getColumnIndex groupCol with
  | error e => exact ⟨rfl, rfl⟩
  | ok groupIdx =>
    simp only
    cases a.getColumnIndex valueCol with
    | error e => exact ⟨rfl, rfl⟩
    | ok valueIdx =>
      simp only
      have h := (groupLoop_reader ops groupIdx valueIdx (a.reader.reset.file.rest.length + 1)
        a.reader.reset { data := [] } []).1
      rw [reset_content] at h
      rcases hgl : groupLoop ops groupIdx valueIdx (a.reader.reset.file.rest.length + 1)
        a.reader.reset { data := [] } [] with ⟨res, r'⟩
      rw [hgl] at h
      cases res with
      | error e => exact ⟨rfl, h⟩
      | ok groups => exact ⟨rfl, h⟩

/-- The results of the operations on two analyzers on the same source are the
same. -/
theorem results_of_sameSource {V : Type} [LinearOrder V] (ops : DoubleOps V)
    (a b : CSVAnalyzer) (h : sameSource a b) :
    (∀ p, (a.filter p).1 = (b.filter p).1) ∧
    (∀ col d, (a.sortByColumn ops col d).1 = (b.sortByColumn ops col d).1) ∧
    (∀ col mx mn, (a.getMaxMin ops col mx mn).1 = (b.getMaxMin ops col mx mn).1) ∧
    (∀ g v, (a.groupByAndAverage ops g v).1 = (b.groupByAndAverage ops g v).1) := by
  obtain ⟨hh, hc⟩ := h
  have hidx : ∀ name, a.getColumnIndex name = b.getColumnIndex name := by
    intro name
    unfold CSVAnalyzer.getColumnIndex
    rw [hh]
  refine ⟨fun p => ?_, fun col d => ?_, fun col mx mn => ?_, fun g v => ?_⟩
  · rw [filter_fst_eq, filter_fst_eq, hc]
  · rw [sortByColumn_fst_eq, sortByColumn_fst_eq, hc, hidx]
  · rw [getMaxMin_fst_rows, getMaxMin_fst_rows, hc, hidx]
  · rw [groupByAndAverage_fst_rows, groupByAndAverage_fst_rows, hc, hidx, hidx]

/-- The scan of `getMaxMin` ends with the failure of the first row whose value
is not obtained. -/
theorem maxMinRows_fails {V : Type} [LinearOrder V] (ops : DoubleOps V) (c : Nat)
    (bad : CSVRow) (after : List CSVRow) (e : Err) (hbad : parseField ops bad c = .error e) :
    ∀ (before : List CSVRow) (first : Bool) (mx mn : V),
    (∀ row ∈ before, ∃ v, parseField ops row c = .ok v) →
    maxMinRows ops c (before ++ bad :: after) first mx mn = .error e
  | [], first, mx, mn, _ => by
    rw [List.nil_append, maxMinRows, hbad]
  | row :: before, first, mx, mn, h => by
    obtain ⟨v, hv⟩ := h row (by simp)
    rw [List.cons_append, maxMinRows, hv]
    simp only
    cases first with
    | true =>
      simp only [if_true]
      exact maxMinRows_fails ops c bad after e hbad before false _ _
        fun x hx => h x (List.mem_cons_of_mem _ hx)
    | false =>
      simp only [Bool.false_eq_true, if_false]
      exact maxMinRows_fails ops c bad after e hbad before false _ _
        fun x hx => h x (List.mem_cons_of_mem _ hx)

/-- The scan of `groupByAndAverage` ends with the failure of the first row whose
key or value is not obtained. -/
theorem groupRows_fails {V : Type} (ops : DoubleOps V) (gi vi : Nat)
    (bad : CSVRow) (after : List CSVRow) (e : Err)
    (hbad : bad.get gi = .error e ∨
      ((∃ key, bad.get gi = .ok key) ∧ parseField ops bad vi = .error e)) :
    ∀ (before : List CSVRow) (g : Groups V),
    (∀ row ∈ before, (∃ key, row.get gi = .ok key) ∧ ∃ v, parseField ops row vi = .ok v) →
    groupRows ops gi vi (before ++ bad :: after) g = .error e
  | [], g, _ => by
    rw [List.nil_append, groupRows]
    rcases hbad with hk | ⟨⟨key, hk⟩, hv⟩
    · rw [hk]
    · rw [hk]
      simp only
      rw [hv]
  | row :: before, g, h => by
    obtain ⟨⟨key, hk⟩, v, hv⟩ := h row (by simp)
    rw [List.cons_append, groupRows, hk]
    simp only
    rw [hv]
    exact groupRows_fails ops gi vi bad after e hbad before _
      fun x hx => h x (List.mem_cons_of_mem _ hx)

theorem parseField_of_stod_none {V : Type} (ops : DoubleOps V) (row : CSVRow) (c : Nat)
    (text : Str) (hget : row.get c = .ok text) (hstod : ops.stod text = none) :
    parseField ops row c = .error .numericParse := by
  unfold parseField
  rw [hget]
  simp only
  rw [hstod]

theorem get_of_size_le (row : CSVRow) (i : Nat) (h : row.size ≤ i) :
    row.get i = .error .indexPastEnd := by
  unfold CSVRow.get
  rw [List.getElem?_eq_none (by exact h)]

theorem get_of_lt_size (row : CSVRow) (i : Nat) (h : i < row.size) :
    row.get i = .ok (row.data.get ⟨i, h⟩) := by
  unfold CSVRow.get
  rw [List.getElem?_eq_getElem (by exact h)]
  rfl

theorem parseField_of_size_le {V : Type} (ops : DoubleOps V) (row : CSVRow) (c : Nat)
    (h : row.size ≤ c) : parseField ops row c = .error .indexPastEnd := by
  unfold parseField
  rw [get_of_size_le row c h]

/-! ## C11: a value that is not a number -/

/-- C11, as stated, fails when a row scanned before the row with the invalid
text lacks a column that is read: in the file `a,b / 1 / 2,x` the columns
resolve and the text `x` in column `b` of the second row does not convert, yet
`getMaxMin` on `b` and `groupByAndAverage` on `a` and `b` read field 1 of the
one-field first row, and neither ends with the failure of the conversion. -/
theorem bad_value_after_short_row :
    (analyzerOf "a,b\n1\n2,x\n".toList).getColumnIndex "a".toList = .ok 0 ∧
    (analyzerOf "a,b\n1\n2,x\n".toList).getColumnIndex "b".toList = .ok 1 ∧
    dataRows "a,b\n1\n2,x\n".toList =
      [{ data := ["1".toList] }, { data := ["2".toList, "x".toList] }] ∧
    parseField exactOps { data := ["2".toList, "x".toList] } 1 = .error .numericParse ∧
    ((analyzerOf "a,b\n1\n2,x\n".toList).getMaxMin exactOps "b".toList 0 0).1 =
      .error .indexPastEnd ∧
    ((analyzerOf "a,b\n1\n2,x\n".toList).groupByAndAverage exactOps "a".toList "b".toList).1 =
      .error .indexPastEnd ∧
    ((analyzerOf "a,b\n1\n2,x\n".toList).getMaxMin exactOps "b".toList 0 0).1 ≠
      .error .numericParse ∧
    ((analyzerOf "a,b\n1\n2,x\n".toList).groupByAndAverage exactOps "a".toList "b".toList).1 ≠
      .error .numericParse := by
  refine ⟨by decide, by decide, by decide, by decide, by decide, by decide, by decide, by decide⟩

/-- C11, amended: when the value column resolves, a scanned row whose text in
that column does not convert makes `getMaxMin` fail with the failure of the
conversion, and so `groupByAndAverage`, which then prints no entry at all,
wherever the row is in the file and whatever follows it, provided the rows
scanned before it have the columns that are read and convert (so that it is
the first row that does not), and it has the group column. -/
theorem value_not_a_number_aborts {V : Type} [LinearOrder V] (ops : DoubleOps V) (text : Str)
    (valueCol : Str) (valueIdx : Nat) (before after : List CSVRow) (bad : CSVRow)
    (badText : Str)
    (hvalue : (analyzerOf text).getColumnIndex valueCol = .ok valueIdx)
    (hrows : dataRows text = before ++ bad :: after)
    (hbefore : ∀ row ∈ before, ∃ v, parseField ops row valueIdx = .ok v)
    (hbad : bad.get valueIdx = .ok badText) (hstod : ops.stod badText = none) :
    (∀ max0 min0, ((analyzerOf text).getMaxMin ops valueCol max0 min0).1 =
      .error .numericParse) ∧
    ∀ groupCol groupIdx, (analyzerOf text).getColumnIndex groupCol = .ok groupIdx →
      (∀ row ∈ before ++ [bad], ∃ key, row.get groupIdx = .ok key) →
      ((analyzerOf text).groupByAndAverage ops groupCol valueCol).1 = .error .numericParse := by
  have hparse := parseField_of_stod_none ops bad valueIdx badText hbad hstod
  refine ⟨fun max0 min0 => ?_, fun groupCol groupIdx hgroup hkeys => ?_⟩
  · rw [getMaxMin_fst_rows, hvalue, analyzerOf_content, hrows]
    exact maxMinRows_fails ops valueIdx bad after _ hparse before true max0 min0 hbefore
  · rw [groupByAndAverage_fst_rows, hgroup, hvalue, analyzerOf_content, hrows]
    simp only
    rw [groupRows_fails ops groupIdx valueIdx bad after .numericParse
      (Or.inr ⟨hkeys bad (by simp), hparse⟩) before []
      fun row hrow => ⟨hkeys row (by simp [hrow]), hbefore row hrow⟩]

/-- C11, amended, at the file `name,score / a,10 / b,x / a,30`, whose second
row has the text `x` in the column `score`. -/
theorem value_not_a_number_aborts_witness :
    ((analyzerOf "name,score\na,10\nb,x\na,30\n".toList).getMaxMin exactOps "score".toList
      0 0).1 = .error .numericParse ∧
    ((analyzerOf "name,score\na,10\nb,x\na,30\n".toList).groupByAndAverage exactOps
      "name".toList "score".toList).1 = .error .numericParse := by
  have h := value_not_a_number_aborts exactOps "name,score\na,10\nb,x\na,30\n".toList
    "score".toList 1 [{ data := ["a".toList, "10".toList] }]
    [{ data := ["a".toList, "30".toList] }] { data := ["b".toList, "x".toList] } "x".toList
    (by decide) (by decide)
    (by
      intro row hrow
      rw [List.mem_singleton.mp hrow]
      exact ⟨10, by decide!⟩)
    (by decide) (by decide)
  refine ⟨h.1 0 0, h.2 "name".toList 0 (by decide) ?_⟩
  intro row hrow
  simp only [List.cons_append, List.nil_append, List.mem_cons, List.mem_singleton,
    List.not_mem_nil, or_false] at hrow
  rcases hrow with rfl | rfl
  · exact ⟨_, rfl⟩
  · exact ⟨_, rfl⟩

/-! ## C16: reading a field -/

/-- C16, as stated, fails: `operator[]` is `data[index]` without a bounds check,
so reading field 1 of the one-field row `a` is a read past the end and not a
thrown failure; and `sortByColumn` on the resolved column `b` of the file
`a,b / 1`, whose only row has one field, returns that row and fails nowhere. -/
theorem field_past_end_is_not_a_failure :
    CSVRow.size { data := ["a".toList] } = 1 ∧
    CSVRow.get { data := ["a".toList] } 1 = .error .indexPastEnd ∧
    Err.thrown .indexPastEnd = false ∧
    (analyzerOf "a,b\n1\n".toList).getColumnIndex "b".toList = .ok 1 ∧
    dataRows "a,b\n1\n".toList = [{ data := ["1".toList] }] ∧
    ((analyzerOf "a,b\n1\n".toList).sortByColumn exactOps "b".toList false).1 =
      .ok [{ data := ["1".toList] }] := by
  refine ⟨by decide, by decide, by decide, by decide, by decide, by decide⟩

/-- C16, amended: `operator[]` returns the `i`-th field when `i` is less than
`size()`; otherwise, also for `i` equal to `size()`, it reads past the end of
`data`, which throws nothing.  Consequently `getMaxMin` on a resolved column at
position `c` makes that read, instead of reading a value, at the first scanned
row with `c` or fewer fields that follows only rows that convert, and so does
`groupByAndAverage` at the first scanned row that lacks its group column or,
having it, lacks its value column. -/
theorem field_access_is_unchecked {V : Type} [LinearOrder V] (ops : DoubleOps V) :
    (∀ (row : CSVRow) (i : Nat),
      (∀ h : i < row.size, row.get i = .ok (row.data.get ⟨i, h⟩)) ∧
      (row.size ≤ i → row.get i = .error .indexPastEnd)) ∧
    Err.thrown .indexPastEnd = false ∧
    (∀ (text columnName : Str) (c : Nat) (before after : List CSVRow) (short : CSVRow)
      (max0 min0 : V),
      (analyzerOf text).getColumnIndex columnName = .ok c →
      dataRows text = before ++ short :: after →
      (∀ row ∈ before, ∃ v, parseField ops row c = .ok v) →
      short.size ≤ c →
      ((analyzerOf text).getMaxMin ops columnName max0 min0).1 = .error .indexPastEnd) ∧
    (∀ (text groupCol valueCol : Str) (groupIdx valueIdx : Nat) (before after : List CSVRow)
      (short : CSVRow),
      (analyzerOf text).getColumnIndex groupCol = .ok groupIdx →
      (analyzerOf text).getColumnIndex valueCol = .ok valueIdx →
      dataRows text = before ++ short :: after →
      (∀ row ∈ before,
        (∃ key, row.get groupIdx = .ok key) ∧ ∃ v, parseField ops row valueIdx = .ok v) →
      (short.size ≤ groupIdx ∨ (groupIdx < short.size ∧ short.size ≤ valueIdx)) →
      ((analyzerOf text).groupByAndAverage ops groupCol valueCol).1 =
        .error .indexPastEnd) := by
  refine ⟨fun row i => ⟨get_of_lt_size row i, get_of_size_le row i⟩, rfl, ?_, ?_⟩
  · intro text columnName c before after short max0 min0 hcol hrows hbefore hshort
    rw [getMaxMin_fst_rows, hcol, analyzerOf_content, hrows]
    exact maxMinRows_fails ops c short after _ (parseField_of_size_le ops short c hshort)
      before true max0 min0 hbefore
  · intro text groupCol valueCol groupIdx valueIdx before after short hg hv hrows hbefore hshort
    rw [groupByAndAverage_fst_rows, hg, hv, analyzerOf_content, hrows]
    simp only
    rw [groupRows_fails ops groupIdx valueIdx short after .indexPastEnd ?_ before [] hbefore]
    rcases hshort with h | ⟨h1, h2⟩
    · exact Or.inl (get_of_size_le short groupIdx h)
    · exact Or.inr ⟨⟨_, get_of_lt_size short groupIdx h1⟩,
        parseField_of_size_le ops short valueIdx h2⟩

/-- The reads of the three fields of a row, and of the position after them; the
scan of the file `a,b / 1,2 / 3` for the extrema of `b`, whose second row has
one field. -/
theorem field_access_examples :
    CSVRow.get { data := ["x".toList, "y".toList, "z".toList] } 0 = .ok "x".toList ∧
    CSVRow.get { data := ["x".toList, "y".toList, "z".toList] } 2 = .ok "z".toList ∧
    CSVRow.get { data := ["x".toList, "y".toList, "z".toList] } 3 = .error .indexPastEnd ∧
    ((analyzerOf "a,b\n1,2\n3\n".toList).getMaxMin exactOps "b".toList 0 0).1 =
      .error .indexPastEnd := by
  refine ⟨by decide, by decide, by decide, by decide!⟩

/-! ## C17: `getMaxMin` on a file without data rows -/

/-- C17: on a file with no data row and a column that resolves, `getMaxMin`
returns without a failure and the caller's `maxVal` and `minVal` hold the values
they held before the call. -/
theorem getMaxMin_without_rows {V : Type} [LinearOrder V] (ops : DoubleOps V) (text : Str)
    (columnName : Str) (colIdx : Nat) (max0 min0 : V)
    (hcol : (analyzerOf text).getColumnIndex columnName = .ok colIdx)
    (hrows : dataRows text = []) :
    ((analyzerOf text).getMaxMin ops columnName max0 min0).1 = .ok (max0, min0) := by
  rw [getMaxMin_fst_rows, hcol, analyzerOf_content, hrows]
  rfl

/-- C17 at the files `name,score` with and without its newline, and at a file
whose header is followed by a blank line: the values 7 and -3 the caller holds
are returned as they are. -/
theorem getMaxMin_without_rows_witness :
    ((analyzerOf "name,score\n".toList).getMaxMin exactOps "score".toList 7 (-3)).1 =
      .ok (7, -3) ∧
    ((analyzerOf "name,score".toList).getMaxMin exactOps "score".toList 7 (-3)).1 =
      .ok (7, -3) ∧
    ((analyzerOf "name,score\n\na,10\n".toList).getMaxMin exactOps "score".toList 7 (-3)).1 =
      .ok (7, -3) :=
  ⟨getMaxMin_without_rows exactOps "name,score\n".toList "score".toList 1 7 (-3) (by decide)
      (by decide),
    getMaxMin_without_rows exactOps "name,score".toList "score".toList 1 7 (-3) (by decide)
      (by decide),
    getMaxMin_without_rows exactOps "name,score\n\na,10\n".toList "score".toList 1 7 (-3)
      (by decide) (by decide)⟩

theorem textOfLines_cons_append (l : Str) (ls : List Str) (x : Str) (after : List Str)
    (nl : Bool) :
    textOfLines (l :: (ls ++ x :: after)) nl = l ++ '\n' :: textOfLines (ls ++ x :: after) nl := by
  cases ls with
  | nil => rfl
  | cons l2 ls2 => rfl

/-- The lines of a text up to its first empty line. -/
theorem pieces_until_blank (after : List Str) (nl : Bool) : ∀ (before : List Str),
    (∀ l ∈ before, '\n' ∉ l ∧ l ≠ []) →
    rowsOfLines (pieces '\n' (textOfLines (before ++ [] :: after) nl)) =
      before.map fun l => { data := readCells l }
  | [], _ => by
    rw [List.nil_append]
    cases after with
    | nil =>
      cases nl with
      | true => decide
      | false => decide
    | cons a as =>
      rw [textOfLines, List.nil_append, pieces_cons]
      simp only [if_true]
      rw [rowsOfLines_cons]
      rfl
  | l :: ls, h => by
    obtain ⟨h1, h2⟩ := h l (by simp)
    rw [List.cons_append, textOfLines_cons_append, pieces_append_delim '\n' l _ h1,
      rowsOfLines_cons, pieces_until_blank after nl ls fun x hx => h x (List.mem_cons_of_mem _ hx)]
    have hl : l.isEmpty = false := by
      cases l with
      | nil => exact absurd rfl h2
      | cons c cs => rfl
    rw [hl]
    rfl

/-- The rows of a file whose data lines hold a blank line: the parse of the
lines before the blank line. -/
theorem dataRows_until_blank (header : Str) (before after : List Str) (nl : Bool)
    (hh : '\n' ∉ header) (hb : ∀ l ∈ before, '\n' ∉ l ∧ l ≠ []) :
    dataRows (textOfLines (header :: (before ++ [] :: after)) nl) =
      before.map fun l => { data := readCells l } := by
  unfold dataRows
  rw [textOfLines_cons_append, pieces_append_delim '\n' header _ hh, List.tail_cons]
  exact pieces_until_blank after nl before hb

/-! ## C18: a blank line ends the scan -/

/-- C18: the rows a scan yields are the parses of the lines after the header
up to the first empty one; so in a file whose header is followed by the
non-blank lines `before`, a blank line, and any lines `after`, the rows that `filter`, `groupByAndAverage`,
`getMaxMin` and `sortByColumn` work on are exactly the parses of the lines of
`before`, in order: the result of each is that of its loop body, or of the
sort, applied to those rows, whatever `after` holds. -/
theorem blank_line_ends_every_scan {V : Type} [LinearOrder V] (ops : DoubleOps V)
    (header : Str) (before after : List Str) (finalNewline : Bool)
    (hheader : '\n' ∉ header) (hbefore : ∀ l ∈ before, '\n' ∉ l ∧ l ≠ []) :
    (∀ text : Str, scanRows text =
      (((pieces '\n' text).tail.takeWhile fun line => !line.isEmpty).map
        fun line => { data := readCells line })) ∧
    scanRows (textOfLines (header :: (before ++ [] :: after)) finalNewline) =
      before.map (fun l => { data := readCells l }) ∧
    (∀ p, ((analyzerOf (textOfLines (header :: (before ++ [] :: after)) finalNewline)).filter
      p).1 = (before.map fun l => { data := readCells l }).filter p) ∧
    (∀ groupCol valueCol groupIdx valueIdx,
      (analyzerOf (textOfLines (header :: (before ++ [] :: after))
        finalNewline)).getColumnIndex groupCol = .ok groupIdx →
      (analyzerOf (textOfLines (header :: (before ++ [] :: after))
        finalNewline)).getColumnIndex valueCol = .ok valueIdx →
      ((analyzerOf (textOfLines (header :: (before ++ [] :: after))
        finalNewline)).groupByAndAverage ops groupCol valueCol).1 =
        match groupRows ops groupIdx valueIdx
          (before.map fun l => { data := readCells l }) [] with
        | .error e => .error e
        | .ok groups => .ok (groups.map fun entry => (entry.1, average ops entry.2))) ∧
    (∀ columnName colIdx max0 min0,
      (analyzerOf (textOfLines (header :: (before ++ [] :: after))
        finalNewline)).getColumnIndex columnName = .ok colIdx →
      ((analyzerOf (textOfLines (header :: (before ++ [] :: after))
        finalNewline)).getMaxMin ops columnName max0 min0).1 =
        maxMinRows ops colIdx (before.map fun l => { data := readCells l }) true max0 min0) ∧
    (∀ columnName colIdx descending,
      (analyzerOf (textOfLines (header :: (before ++ [] :: after))
        finalNewline)).getColumnIndex columnName = .ok colIdx →
      ((analyzerOf (textOfLines (header :: (before ++ [] :: after))
        finalNewline)).sortByColumn ops columnName descending).1 =
        stdSort (sortComparator ops colIdx descending)
          (before.map fun l => { data := readCells l })) := by
  have hrows := dataRows_until_blank header before after finalNewline hheader hbefore
  refine ⟨fun text => ?_, ?_, fun p => ?_, fun groupCol valueCol groupIdx valueIdx hg hv => ?_,
    fun columnName colIdx max0 min0 hc => ?_, fun columnName colIdx descending hc => ?_⟩
  · rw [scanRows_eq]
    rfl
  · rw [scanRows_eq, hrows]
  · rw [filter_fst_eq, analyzerOf_content, hrows]
  · rw [groupByAndAverage_fst_rows, hg, hv, analyzerOf_content, hrows]
  · rw [getMaxMin_fst_rows, hc, analyzerOf_content, hrows]
  · rw [sortByColumn_fst_eq, hc, analyzerOf_content, hrows]

/-- C18 at the file `name,score / a,10 / b,20 / (blank) / a,30 / c,x`: every
operation works on the two rows before the blank line, and the text `x` after
it is never converted. -/
theorem blank_line_ends_every_scan_witness :
    textOfLines ("name,score".toList ::
      (["a,10".toList, "b,20".toList] ++ [] :: ["a,30".toList, "c,x".toList])) true =
      "name,score\na,10\nb,20\n\na,30\nc,x\n".toList ∧
    scanRows "name,score\na,10\nb,20\n\na,30\nc,x\n".toList =
      [{ data := ["a".toList, "10".toList] }, { data := ["b".toList, "20".toList] }] ∧
    ((analyzerOf "name,score\na,10\nb,20\n\na,30\nc,x\n".toList).getMaxMin exactOps
      "score".toList 0 0).1 = .ok (20, 10) ∧
    ((analyzerOf "name,score\na,10\nb,20\n\na,30\nc,x\n".toList).groupByAndAverage exactOps
      "name".toList "score".toList).1 = .ok [("a".toList, 10), ("b".toList, 20)] ∧
    ((analyzerOf "name,score\na,10\nb,20\n\na,30\nc,x\n".toList).sortByColumn exactOps
      "score".toList true).1 =
      .ok [{ data := ["b".toList, "20".toList] }, { data := ["a".toList, "10".toList] }] := by
  have htext : textOfLines ("name,score".toList ::
      (["a,10".toList, "b,20".toList] ++ [] :: ["a,30".toList, "c,x".toList])) true =
      "name,score\na,10\nb,20\n\na,30\nc,x\n".toList := by decide
  have h := blank_line_ends_every_scan exactOps "name,score".toList
    ["a,10".toList, "b,20".toList] ["a,30".toList, "c,x".toList] true (by decide) (by decide)
  rw [htext] at h
  obtain ⟨-, h1, -, h3, h4, h5⟩ := h
  refine ⟨htext, h1.trans (by decide), ?_, ?_, ?_⟩
  · exact (h4 "score".toList 1 0 0 (by decide)).trans (by decide!)
  · exact (h3 "name".toList "score".toList 0 1 (by decide) (by decide)).trans (by decide!)
  · exact (h5 "score".toList 1 true (by decide)).trans (by decide!)

theorem writeFields_eq_intercalate : ∀ (fs : List Str), writeFields fs = [','].intercalate fs
  | [] => rfl
  | [f] => by simp [writeFields, List.intercalate, List.intersperse]
  | f :: g :: more => by
    have ih := writeFields_eq_intercalate (g :: more)
    rw [writeFields, ih]
    simp [List.intercalate, List.intersperse]

theorem writeRows_eq_flatten : ∀ (rows : List CSVRow),
    writeRows rows = (rows.map fun row => [','].intercalate row.data ++ ['\n']).flatten
  | [] => rfl
  | row :: more => by
    rw [writeRows, writeRows_eq_flatten more, writeFields_eq_intercalate]
    simp

theorem writeFields_last : ∀ (fs : List Str) (h : fs ≠ []),
    writeFields fs = (fs.dropLast.map fun f => f ++ [',']).flatten ++ fs.getLast h
  | [], h => absurd rfl h
  | [f], _ => by simp [writeFields]
  | f :: g :: more, _ => by
    rw [writeFields, writeFields_last (g :: more) (by simp)]
    simp

theorem writeFields_cons_head (c : Char) (p : Str) (ps : List Str) :
    writeFields ((c :: p) :: ps) = c :: writeFields (p :: ps) := by
  cases ps with
  | nil => rfl
  | cons q qs => rfl

theorem writeFields_append_empty : ∀ (ps : List Str), ps ≠ [] →
    writeFields (ps ++ [[]]) = writeFields ps ++ [',']
  | [], h => absurd rfl h
  | [f], _ => by simp [writeFields]
  | f :: g :: more, _ => by
    have ih := writeFields_append_empty (g :: more) (by simp)
    rw [List.cons_append] at ih
    show writeFields (f :: g :: (more ++ [[]])) = writeFields (f :: g :: more) ++ [',']
    rw [writeFields, ih, writeFields]
    simp

/-- A line is the comma-join of its parsed fields, followed by a comma when
the line ends in one. -/
theorem line_eq_join_pieces : ∀ (line : Str),
    line = writeFields (pieces ',' line) ++ (if line.getLast? = some ',' then [','] else [])
  | [] => by simp [pieces, writeFields]
  | c :: cs => by
    have ih := line_eq_join_pieces cs
    rw [pieces_cons]
    by_cases hcs : cs = []
    · subst hcs
      by_cases hc : c = ','
      · subst hc
        simp [pieces, writeFields]
      · simp [pieces, writeFields, hc]
    · have hlast : (c :: cs).getLast? = cs.getLast? := by
        cases cs with
        | nil => exact absurd rfl hcs
        | cons d ds => rw [List.getLast?_cons_cons]
      have hp : pieces ',' cs ≠ [] := (pieces_eq_nil ',' cs).not.mpr hcs
      rw [hlast]
      cases hpc : pieces ',' cs with
      | nil => exact absurd hpc hp
      | cons p ps =>
        rw [hpc] at ih
        by_cases hc : c = ','
        · subst hc
          simp only [if_true]
          rw [writeFields, List.nil_append, List.cons_append, ← ih]
        · simp only [hc, if_false]
          rw [writeFields_cons_head, List.cons_append, ← ih]

/-! ## C12: the exported text -/

/-- C12: `exportToCSV` writes exactly the header names joined by single commas
and a newline, then for each row in order its fields joined by single commas
and a newline; in a line with fields every field but the last is followed by
one comma and the last field by nothing, the fields being written as they are;
and a header list or a row without fields gives a line holding only the
newline. -/
theorem exportToCSV_writes_joined_lines (a : CSVAnalyzer) (rows : List CSVRow) :
    a.exportToCSV rows = exportText a.headers rows ∧
    (∀ (fs : List Str) (h : fs ≠ []),
      writeFields fs = (fs.dropLast.map fun f => f ++ [',']).flatten ++ fs.getLast h) ∧
    writeFields [] = [] ∧
    (a.headers = [] → a.exportToCSV rows = '\n' :: writeRows rows) ∧
    (∀ more, writeRows ({ data := [] } :: more) = '\n' :: writeRows more) := by
  refine ⟨?_, writeFields_last, rfl, fun h => ?_, fun more => rfl⟩
  · unfold CSVAnalyzer.exportToCSV exportText
    rw [writeFields_eq_intercalate, writeRows_eq_flatten]
    simp
  · unfold CSVAnalyzer.exportToCSV
    rw [h]
    rfl

/-- The export of the header `name,score` with the rows `a,30`, a row without
fields and `b,` (whose second field is empty). -/
theorem exportToCSV_example :
    (analyzerOf "name,score\n".toList).exportToCSV
      [{ data := ["a".toList, "30".toList] }, { data := [] }, { data := ["b".toList, []] }] =
      "name,score\na,30\n\nb,\n".toList := by
  decide

/-! ## C13: `filter` -/

/-- C13: `filter` returns exactly the scanned rows on which the predicate
holds, in scan order and as often as they are scanned: its result is the list
filter of the scanned row sequence, so every returned row satisfies the
predicate, every scanned row that satisfies it is returned, and a row is
returned as many times as it is scanned. -/
theorem filter_returns_matching_rows (a : CSVAnalyzer) (p : CSVRow → Bool) :
    (a.filter p).1 = (scanAll a.reader.reset).filter p ∧
    (a.filter p).1 = (dataRows a.reader.file.content).filter p ∧
    (∀ row ∈ (a.filter p).1, p row = true) ∧
    (∀ row ∈ scanAll a.reader.reset, p row = true → row ∈ (a.filter p).1) ∧
    (∀ row, p row = true →
      (a.filter p).1.count row = (scanAll a.reader.reset).count row) ∧
    (a.filter p).1.Sublist (scanAll a.reader.reset) := by
  have h1 : (a.filter p).1 = (scanAll a.reader.reset).filter p := by
    rw [filter_fst_eq, scanAll_reset]
  refine ⟨h1, filter_fst_eq a p, ?_, ?_, ?_, ?_⟩
  · intro row hrow
    rw [h1] at hrow
    exact (List.mem_filter.mp hrow).2
  · intro row hrow hp
    rw [h1]
    exact List.mem_filter.mpr ⟨hrow, hp⟩
  · intro row hp
    rw [h1, List.count_filter hp]
  · rw [h1]
    exact List.filter_sublist _

/-- On the file `k / a / b / a / c` the predicate "the first field is `a`"
returns the row `a` twice, in place. -/
theorem filter_example :
    ((analyzerOf "k\na\nb\na\nc\n".toList).filter
      fun row => decide (row.data.head? = some "a".toList)).1 =
      [{ data := ["a".toList] }, { data := ["a".toList] }] := by
  decide

/-! ## C14: the parse of a line -/

/-- C14, as stated, fails on a line that ends in a comma: the line `a,` has the
two comma-free pieces `a` and the empty text, the parse yields the one field
`a`, and joining it gives `a`, not the line. -/
theorem parse_drops_final_empty_piece :
    "a,".toList.splitOn ',' = ["a".toList, []] ∧
    readCells "a,".toList = ["a".toList] ∧
    writeFields (readCells "a,".toList) = "a".toList ∧
    writeFields (readCells "a,".toList) ≠ "a,".toList := by
  refine ⟨by decide, by decide, by decide, by decide⟩

/-- C14, amended: the parse of an empty line is an empty field sequence, and on
a non-empty line that does not end in a comma the fields are the maximal
comma-free pieces of the line, in order and as they stand, so that joining them
with commas gives back the line; on a line that ends in a comma the empty
piece after the last comma is not yielded: the fields are the other pieces,
and joining them gives the line without its last comma. -/
theorem parse_splits_on_commas :
    readCells [] = [] ∧
    (∀ line : Str, ∀ f ∈ readCells line, ',' ∉ f) ∧
    (∀ line : Str, line ≠ [] → line.getLast? ≠ some ',' →
      readCells line = line.splitOn ',' ∧ writeFields (readCells line) = line ∧
      [','].intercalate (readCells line) = line) ∧
    (∀ line : Str, line.getLast? = some ',' →
      readCells line ++ [[]] = line.splitOn ',' ∧
      writeFields (readCells line) ++ [','] = line) := by
  refine ⟨by decide, fun line f hf => ?_, fun line hne hlast => ?_, fun line hlast => ?_⟩
  · rw [readCells_eq] at hf
    exact (pieces_mem ',' line f hf).1
  · have hj := line_eq_join_pieces line
    rw [if_neg hlast, List.append_nil] at hj
    have hp : pieces ',' line ≠ [] := (pieces_eq_nil ',' line).not.mpr hne
    rw [readCells_eq]
    refine ⟨?_, hj.symm, by rw [← writeFields_eq_intercalate]; exact hj.symm⟩
    conv => rhs; rw [hj, writeFields_eq_intercalate]
    exact (List.splitOn_intercalate _ ',' (fun l hl => (pieces_mem ',' line l hl).1) hp).symm
  · have hne : line ≠ [] := by
      intro h
      rw [h] at hlast
      simp at hlast
    have hj := line_eq_join_pieces line
    rw [if_pos hlast] at hj
    have hp : pieces ',' line ≠ [] := (pieces_eq_nil ',' line).not.mpr hne
    rw [readCells_eq]
    refine ⟨?_, hj.symm⟩
    conv => rhs; rw [hj, ← writeFields_append_empty _ hp, writeFields_eq_intercalate]
    refine (List.splitOn_intercalate _ ',' (fun l hl => ?_) (by simp)).symm
    rcases List.mem_append.mp hl with hl | hl
    · exact (pieces_mem ',' line l hl).1
    · rw [List.mem_singleton.mp hl]
      simp

/-- The parses of a few lines: fields are kept as they stand, blanks included,
and empty fields inside a line are kept. -/
theorem parse_examples :
    readCells "a,b".toList = ["a".toList, "b".toList] ∧
    readCells " a , b ".toList = [" a ".toList, " b ".toList] ∧
    readCells ",x,,y".toList = [[], "x".toList, [], "y".toList] ∧
    readCells ",".toList = [[]] ∧
    readCells "a,,".toList = ["a".toList, []] := by
  refine ⟨by decide, by decide, by decide, by decide, by decide⟩

/-! ## C19: parsing a joined row -/

/-- C19: for a non-empty sequence of fields none of which holds a comma or a
newline and whose last field is not empty, parsing the fields joined with
single commas returns exactly the fields: so does the splitting of the joined
line, and so does `readNextRow` on a stream that holds the joined line and its
newline. -/
theorem parse_of_joined_fields (fields : List Str) (hne : fields ≠ [])
    (hfields : ∀ f ∈ fields, ',' ∉ f ∧ '\n' ∉ f) (hlast : fields.getLast? ≠ some []) :
    readCells (writeFields fields) = fields ∧
    readCells ([','].intercalate fields) = fields ∧
    ∀ more : Str,
      (CSVRow.readNextRow (IStream.ofText (writeFields fields ++ '\n' :: more))).2 =
        { data := fields } := by
  have h1 : readCells (writeFields fields) = fields := by
    rw [readCells_eq]
    exact pieces_writeFields fields hne (fun f hf => (hfields f hf).1) hlast
  refine ⟨h1, by rw [← writeFields_eq_intercalate]; exact h1, fun more => ?_⟩
  have hnl : '\n' ∉ writeFields fields :=
    writeFields_no_newline fields fun f hf => (hfields f hf).2
  have ht : takeLine '\n' (writeFields fields ++ '\n' :: more) = (writeFields fields, some more) := by
    cases h : takeLine '\n' (writeFields fields ++ '\n' :: more) with
    | mk l o =>
      cases o with
      | some r' =>
        obtain ⟨e, hn, -⟩ := takeLine_some '\n' _ _ _ h
        have := List.append_eq_append_iff.mp e
        rcases this with ⟨a', e1, e2⟩ | ⟨c', e1, e2⟩
        · cases a' with
          | nil =>
            simp only [List.append_nil, List.nil_append] at e1 e2
            injection e2 with _ e3
            rw [e1, e3]
          | cons x xs =>
            rw [List.cons_append] at e2
            injection e2 with e3 _
            rw [e1] at hn
            exact absurd (by simp [← e3]) hn
        · cases c' with
          | nil =>
            simp only [List.append_nil, List.nil_append] at e1 e2
            injection e2 with _ e3
            rw [e1, ← e3]
          | cons x xs =>
            rw [List.cons_append] at e2
            injection e2 with e3 _
            rw [e1] at hnl
            exact absurd (by subst e3; simp) hnl
      | none =>
        obtain ⟨e, hn, -⟩ := takeLine_none '\n' _ _ h
        rw [← e] at hn
        exact absurd (by simp) hn
  unfold CSVRow.readNextRow IStream.ofText
  rw [getline_some _ [] '\n' _ _ rfl rfl ht, h1]

/-- C19 at the fields `a`, the empty text and `30`. -/
theorem parse_of_joined_fields_witness :
    readCells (writeFields ["a".toList, [], "30".toList]) = ["a".toList, [], "30".toList] ∧
    readCells ([','].intercalate ["a".toList, [], "30".toList]) =
      ["a".toList, [], "30".toList] ∧
    ∀ more : Str,
      (CSVRow.readNextRow
        (IStream.ofText (writeFields ["a".toList, [], "30".toList] ++ '\n' :: more))).2 =
        { data := ["a".toList, [], "30".toList] } :=
  parse_of_joined_fields ["a".toList, [], "30".toList] (by decide) (by decide) (by decide)

theorem rowsFrom_fields (s : IStream) (row : CSVRow) (h : row ∈ rowsFrom s) :
    row.data ≠ [] ∧ ∀ f ∈ row.data, ',' ∉ f ∧ '\n' ∉ f := by
  unfold rowsFrom at h
  split at h
  · simp at h
  · obtain ⟨line, hl, hne, rfl⟩ := rowsOfLines_mem _ row h
    have hnl : '\n' ∉ line := (pieces_mem '\n' s.rest line hl).1
    exact ⟨(readCells_fields line hnl).1 hne, (readCells_fields line hnl).2⟩

theorem afterRounds_headers : ∀ (n : Nat) (r : CSVReader),
    (afterRounds n r).headers = r.headers
  | 0, _ => rfl
  | n + 1, r => by
    rw [afterRounds, afterRounds_headers n, readAllLoop_headers, reset_headers]

theorem afterReads_headers : ∀ (k : Nat) (r : CSVReader) (row : CSVRow),
    (afterReads k r row).headers = r.headers
  | 0, _, _ => rfl
  | k + 1, r, row => by
    rw [afterReads, afterReads_headers k]
    exact (readRow_spec r row).2.2.2.1

/-! ## C20: the shape of rows and header names -/

/-- C20: every row a reader yields, in whatever state the reader is, has at
least one field, and none of its fields holds a comma or a newline; the same
holds of the header names parsed when the file is opened, which no read and no
reset changes.  This holds for every file content, and so for the scans made
after any number of resets. -/
theorem yielded_rows_and_headers_are_clean :
    (∀ (r : CSVReader) (row : CSVRow), (r.readRow row).2.2 = true →
      (r.readRow row).2.1.data ≠ [] ∧
      ∀ f ∈ (r.readRow row).2.1.data, ',' ∉ f ∧ '\n' ∉ f) ∧
    (∀ (r : CSVReader), ∀ row ∈ scanAll r,
      row.data ≠ [] ∧ ∀ f ∈ row.data, ',' ∉ f ∧ '\n' ∉ f) ∧
    (∀ (text : Str) (n : Nat), ∀ row ∈ scanAll (afterRounds n (CSVReader.create text)).reset,
      row.data ≠ [] ∧ ∀ f ∈ row.data, ',' ∉ f ∧ '\n' ∉ f) ∧
    (∀ (text : Str), ∀ row ∈ scanRows text,
      row.data ≠ [] ∧ ∀ f ∈ row.data, ',' ∉ f ∧ '\n' ∉ f) ∧
    (∀ (text : Str), ∀ f ∈ (CSVReader.create text).getHeaders, ',' ∉ f ∧ '\n' ∉ f) ∧
    (∀ (text : Str) (n k : Nat) (row : CSVRow),
      (afterReads k (afterRounds n (CSVReader.create text)).reset row).getHeaders =
        (CSVReader.create text).getHeaders) ∧
    (∀ (text : Str), ∀ f ∈ (analyzerOf text).headers, ',' ∉ f ∧ '\n' ∉ f) := by
  refine ⟨fun r row h => ?_, fun r row h => ?_, fun text n row h => ?_, fun text row h => ?_,
    fun text => analyzerOf_headers text, fun text n k row => ?_,
    fun text => analyzerOf_headers text⟩
  · have hspec := ((readRow_spec r row).1 h).1
    exact rowsFrom_fields r.file _ (by rw [hspec]; simp)
  · rw [scanAll_eq] at h
    exact rowsFrom_fields _ row h
  · rw [scanAll_eq] at h
    exact rowsFrom_fields _ row h
  · rw [scanRows_eq] at h
    exact dataRows_fields text row h
  · unfold CSVReader.getHeaders
    rw [afterReads_headers, reset_headers, afterRounds_headers]

/-- On the file `x,y / 1,,2 / ,` the rows are `1`, empty, `2` and the single
empty field, and the header names are `x` and `y`, also after two rounds of
reset and scan. -/
theorem yielded_rows_example :
    scanAll (afterRounds 2 (CSVReader.create "x,y\n1,,2\n,\n".toList)).reset =
      [{ data := ["1".toList, [], "2".toList] }, { data := [[]] }] ∧
    (afterRounds 2 (CSVReader.create "x,y\n1,,2\n,\n".toList)).reset.getHeaders =
      ["x".toList, "y".toList] := by
  refine ⟨by decide, by decide⟩

/-! ## C15: results depend on the file content only -/

/-- C15: every operation starts with a reset, so its result depends on the
header names and the content of the file only, not on the state the reader was
left in: two analyzers on the same source give the same results, every
operation leaves the analyzer on the same source, and so `sortByColumn` called
twice in a row with the same column and direction returns the same sequence
both times, and after an earlier `filter`, `getMaxMin` or `groupByAndAverage`
it returns what it returns on the analyzer of a file just opened. -/
theorem results_depend_on_content_only {V : Type} [LinearOrder V] (ops : DoubleOps V) :
    (∀ (a : CSVAnalyzer) (col : Str) (d : Bool),
      ((a.sortByColumn ops col d).2.sortByColumn ops col d).1 =
        (a.sortByColumn ops col d).1) ∧
    (∀ (text : Str) (p : CSVRow → Bool) (col : Str) (d : Bool),
      (((analyzerOf text).filter p).2.sortByColumn ops col d).1 =
        ((analyzerOf text).sortByColumn ops col d).1) ∧
    (∀ (text : Str) (col' : Str) (mx mn : V) (col : Str) (d : Bool),
      (((analyzerOf text).getMaxMin ops col' mx mn).2.sortByColumn ops col d).1 =
        ((analyzerOf text).sortByColumn ops col d).1) ∧
    (∀ (text : Str) (g v : Str) (col : Str) (d : Bool),
      (((analyzerOf text).groupByAndAverage ops g v).2.sortByColumn ops col d).1 =
        ((analyzerOf text).sortByColumn ops col d).1) ∧
    (∀ (a b : CSVAnalyzer), sameSource a b →
      (∀ p, (a.filter p).1 = (b.filter p).1) ∧
      (∀ col d, (a.sortByColumn ops col d).1 = (b.sortByColumn ops col d).1) ∧
      (∀ col mx mn, (a.getMaxMin ops col mx mn).1 = (b.getMaxMin ops col mx mn).1) ∧
      (∀ g v, (a.groupByAndAverage ops g v).1 = (b.groupByAndAverage ops g v).1)) ∧
    (∀ (a : CSVAnalyzer),
      (∀ p, sameSource (a.filter p).2 a) ∧
      (∀ col d, sameSource (a.sortByColumn ops col d).2 a) ∧
      (∀ col mx mn, sameSource (a.getMaxMin ops col mx mn).2 a) ∧
      (∀ g v, sameSource (a.groupByAndAverage ops g v).2 a)) := by
  refine ⟨fun a col d => ?_, fun text p col d => ?_, fun text col' mx mn col d => ?_,
    fun text g v col d => ?_, fun a b h => results_of_sameSource ops a b h, fun a => ?_⟩
  · exact (results_of_sameSource ops _ a (sortByColumn_sameSource ops a col d)).2.1 col d
  · exact (results_of_sameSource ops _ _ (filter_sameSource _ p)).2.1 col d
  · exact (results_of_sameSource ops _ _ (getMaxMin_sameSource ops _ col' mx mn)).2.1 col d
  · exact (results_of_sameSource ops _ _ (groupByAndAverage_sameSource ops _ g v)).2.1 col d
  · exact ⟨filter_sameSource a, sortByColumn_sameSource ops a, getMaxMin_sameSource ops a,
      groupByAndAverage_sameSource ops a⟩

/-- On the file `name,score / a,10 / b,20 / a,30`: the reader is left at the
end of the file by a first sort, and a second sort returns the same rows. -/
theorem sort_twice_example :
    ((analyzerOf "name,score\na,10\nb,20\na,30\n".toList).sortByColumn exactOps
      "score".toList true).2.reader.file.eofbit = true ∧
    (((analyzerOf "name,score\na,10\nb,20\na,30\n".toList).sortByColumn exactOps
      "score".toList true).2.sortByColumn exactOps "score".toList true).1 =
      .ok [{ data := ["a".toList, "30".toList] }, { data := ["b".toList, "20".toList] },
        { data := ["a".toList, "10".toList] }] := by
  refine ⟨by decide!, by decide!⟩

end CsvTool
